import Mathlib

/-!
Verification of the skill-eval execution engine (src/evals/src/skill_eval/runner.py)
against its natural-language specification.

The Python code is shallowly embedded: pure string manipulation is embedded as
functions on `String` / `List Char`; the filesystem is embedded as a finite tree;
library calls at the boundary (the JSON codec, `urllib.parse.urlparse`, the
subprocess, the HTTP fetch) are embedded by faithful models of the slices of
their behaviour the code exercises.  Fallible Python code (code that can raise)
is embedded in `Except`.
-/

namespace SkillEval

/-! ## Python string primitives

Embeddings of the Python `str` methods used by runner.py.  They operate on
`String.data` so that everything is structurally recursive and kernel-reducible.
-/

/-- Embedding of Python `s.split(sep)` for a one-character separator, on char
lists: `"".split(c) = [""]`, separators at the ends produce empty segments. -/
def pySplitChar (sep : Char) : List Char → List (List Char)
  | [] => [[]]
  | c :: cs =>
    if c = sep then [] :: pySplitChar sep cs
    else
      match pySplitChar sep cs with
      | [] => [[c]]
      | g :: gs => (c :: g) :: gs

/-- Embedding of Python `s.split(sep)` for a one-character separator. -/
def pySplit (s : String) (sep : Char) : List String :=
  (pySplitChar sep s.data).map (fun g => String.mk g)

/-- Embedding of Python `sep.join(parts)`. -/
def pyJoin (sep : String) : List String → String
  | [] => ""
  | [x] => x
  | x :: y :: rest => x ++ sep ++ pyJoin sep (y :: rest)

/-- Python whitespace (the ASCII characters stripped by `str.strip()`). -/
def isPyWs (c : Char) : Bool :=
  c == ' ' || c == '\t' || c == '\n' || c == '\r' || c == '\x0b' || c == '\x0c'

/-- Embedding of Python `s.strip()` (ASCII whitespace). -/
def pyStrip (s : String) : String :=
  String.mk (((s.data.dropWhile isPyWs).reverse.dropWhile isPyWs).reverse)

/-- Embedding of Python `s.rstrip("/")`. -/
def pyRstripSlash (s : String) : String :=
  String.mk ((s.data.reverse.dropWhile (fun c => c == '/')).reverse)

/-- Embedding of Python `s.replace(".", "-")` (single-character replacement). -/
def pyReplaceDotDash (s : String) : String :=
  String.mk (s.data.map (fun c => if c = '.' then '-' else c))

/-! ## Model of `urllib.parse.urlparse`

runner.py reads only `scheme`, `netloc` and `path` of the parse result, on
absolute `http(s)` URLs.  The model follows CPython `urlsplit`/`urlparse`:
scheme (validated and lowercased), `//`-netloc up to the first of `/ ? #`,
fragment at the first `#`, query at the first `?`, and the `;params` split on
the last path segment that distinguishes `urlparse` from `urlsplit`. -/

structure UrlParts where
  scheme : String
  netloc : String
  path : String
  query : String
  fragment : String
  deriving Repr, DecidableEq

/-- Characters CPython allows in a URL scheme after the leading letter. -/
def schemeChar (c : Char) : Bool :=
  c.isAlphanum || c == '+' || c == '-' || c == '.'

/-- Delimiter ending the netloc portion of a URL. -/
def netlocEnd (c : Char) : Bool :=
  c == '/' || c == '?' || c == '#'

/-- Scheme extraction: CPython recognizes a scheme when the text before the
first colon is a letter followed by scheme characters, and lowercases it. -/
def schemeSplit (cs : List Char) : List Char × List Char :=
  let pre := cs.takeWhile (fun c => !(c == ':'))
  match cs.dropWhile (fun c => !(c == ':')) with
  | [] => ([], cs)
  | _ :: r =>
    if (pre.head?.map Char.isAlpha).getD false && pre.tail.all schemeChar then
      (pre.map Char.toLower, r)
    else ([], cs)

/-- Netloc extraction: present exactly when the remainder starts with `//`. -/
def netlocSplit : List Char → List Char × List Char
  | '/' :: '/' :: r => (r.takeWhile (fun c => !(netlocEnd c)), r.dropWhile (fun c => !(netlocEnd c)))
  | cs => ([], cs)

/-- Splits off the part after the first occurrence of `mark`, if any. -/
def splitAtMark (mark : Char) (cs : List Char) : List Char × List Char :=
  let pre := cs.takeWhile (fun c => !(c == mark))
  match cs.dropWhile (fun c => !(c == mark)) with
  | [] => (pre, [])
  | _ :: r => (pre, r)

/-- Params split of `urlparse`: drops everything from the first `;` in the
last path segment (CPython `_splitparams`). -/
def splitParamsChars (cs : List Char) : List Char :=
  if cs.contains '/' then
    let rev := cs.reverse
    (rev.dropWhile (fun c => !(c == '/'))).reverse
      ++ (rev.takeWhile (fun c => !(c == '/'))).reverse.takeWhile (fun c => !(c == ';'))
  else cs.takeWhile (fun c => !(c == ';'))

/-- Model of `urllib.parse.urlparse` restricted to what runner.py reads. -/
def urlparse (url : String) : UrlParts :=
  let (scheme, rest1) := schemeSplit url.data
  let (netloc, rest2) := netlocSplit rest1
  let (pathq, fragment) := splitAtMark '#' rest2
  let (path0, query) := splitAtMark '?' pathq
  { scheme := String.mk scheme
    netloc := String.mk netloc
    path := String.mk (splitParamsChars path0)
    query := String.mk query
    fragment := String.mk fragment }

/-! ## `Runner._is_url`, `Runner._normalize_github_url` and the folder naming
of `Runner._download_skill` -/

/-- Embedding of `Runner._is_url`: the path is an HTTP(S) URL. -/
def isUrl (path : String) : Bool :=
  (urlparse path).scheme == "http" || (urlparse path).scheme == "https"

/-- Embedding of `Runner._normalize_github_url`: rewrites a GitHub blob URL
`https://github.com/org/repo/blob/ref/path` to its raw-content form; any other
URL is returned unchanged. -/
def normalizeGithubUrl (url : String) : String :=
  let parsed := urlparse url
  if parsed.netloc ≠ "github.com" then url
  else
    let pathParts := pySplit parsed.path '/'
    if 5 ≤ pathParts.length ∧ pathParts.getD 3 "" = "blob" then
      "https://raw.githubusercontent.com" ++ pyJoin "/" (pathParts.take 3 ++ pathParts.drop 4)
    else url

/-- Embedding of the folder-name derivation inside `Runner._download_skill`:
normalize the URL, strip trailing slashes from its path, split into nonempty
segments, then pick the parent folder of the file, the repository name for a
GitHub raw URL with the file at repo root, or the dashed hostname. -/
def downloadSkillFolderName (url : String) : String :=
  let downloadUrl := normalizeGithubUrl url
  let parsed := urlparse downloadUrl
  let path := pyRstripSlash parsed.path
  let allParts := (pySplit path '/').filter (fun p => p ≠ "")
  if parsed.netloc = "raw.githubusercontent.com" then
    if allParts.length ≤ 4 then
      if 2 ≤ allParts.length then allParts.getD 1 "" else "downloaded-skill"
    else allParts.getD (allParts.length - 2) ""
  else if 2 ≤ allParts.length then allParts.getD (allParts.length - 2) ""
  else pyReplaceDotDash parsed.netloc

/-! ## Python values and the JSON codec

`Runner._parse_json_output` manipulates the values produced by `json.loads`.
`PyVal` models exactly those values (JSON numbers are modelled as rationals,
which is exact for the integer arithmetic the code performs; the non-standard
`NaN`/`Infinity` extensions and surrogate pairs are outside the model).
Operations that can raise in Python (`.get` on a non-dict, iterating a
non-iterable, `+` on incompatible types, adding an unhashable value to a set)
are embedded in `Except PyErr`. -/

inductive PyVal where
  | none
  | bool (b : Bool)
  | num (q : Rat)
  | str (s : String)
  | list (xs : List PyVal)
  | dict (kvs : List (String × PyVal))

/-- Python exception kinds raised by the decoder's operations. -/
inductive PyErr where
  | attributeError
  | typeError
  deriving DecidableEq, Repr

/-- First-match association lookup (dicts are key-deduplicated on build). -/
def dictGet : List (String × PyVal) → String → Option PyVal
  | [], _ => Option.none
  | (k0, v0) :: rest, k => if k0 = k then some v0 else dictGet rest k

/-- Embedding of `d.get(k, dflt)` on a dict's entry list. -/
def dictGetD (kvs : List (String × PyVal)) (k : String) (dflt : PyVal) : PyVal :=
  (dictGet kvs k).getD dflt

/-- Embedding of `v.get(k, dflt)`: raises `AttributeError` unless `v` is a dict. -/
def pyGet (v : PyVal) (k : String) (dflt : PyVal) : Except PyErr PyVal :=
  match v with
  | PyVal.dict kvs => Except.ok (dictGetD kvs k dflt)
  | _ => Except.error PyErr.attributeError

/-- Python `v == "lit"` for a string literal: true only for an equal string. -/
def isStrEq (v : PyVal) (s : String) : Bool :=
  match v with
  | PyVal.str t => t == s
  | _ => false

/-- Python truthiness of a value. -/
def pyTruthy : PyVal → Bool
  | PyVal.none => false
  | PyVal.bool b => b
  | PyVal.num q => !(q == 0)
  | PyVal.str s => !(s == "")
  | PyVal.list xs => !xs.isEmpty
  | PyVal.dict kvs => !kvs.isEmpty

/-- Python `==` on the hashable (scalar) values a set can hold; `True == 1`
and `1 == 1.0` style numeric coercions included. -/
def scalarEq (a b : PyVal) : Bool :=
  match a, b with
  | PyVal.none, PyVal.none => true
  | PyVal.bool x, PyVal.bool y => x == y
  | PyVal.bool x, PyVal.num q => (if x then (1 : Rat) else 0) == q
  | PyVal.num q, PyVal.bool y => q == (if y then (1 : Rat) else 0)
  | PyVal.num x, PyVal.num y => x == y
  | PyVal.str x, PyVal.str y => x == y
  | _, _ => false

/-- Embedding of `s.add(v)` on a Python set, modelled as an insertion-ordered
duplicate-free list (the set's own iteration order is abstracted; only
membership is relied on).  Unhashable values raise `TypeError`. -/
def pySetAdd (s : List PyVal) (v : PyVal) : Except PyErr (List PyVal) :=
  match v with
  | PyVal.list _ => Except.error PyErr.typeError
  | PyVal.dict _ => Except.error PyErr.typeError
  | _ => if s.any (fun w => scalarEq v w) then Except.ok s else Except.ok (s ++ [v])

/-- Embedding of `for x in v`: lists yield elements, strings yield their
one-character strings, dicts yield their keys; other values raise. -/
def pyIter : PyVal → Except PyErr (List PyVal)
  | PyVal.list xs => Except.ok xs
  | PyVal.str s => Except.ok (s.data.map (fun c => PyVal.str (String.mk [c])))
  | PyVal.dict kvs => Except.ok (kvs.map (fun kv => PyVal.str kv.1))
  | _ => Except.error PyErr.typeError

/-- Embedding of `v.strip()`: raises `AttributeError` unless `v` is a string. -/
def pyStripVal : PyVal → Except PyErr String
  | PyVal.str s => Except.ok (pyStrip s)
  | _ => Except.error PyErr.attributeError

/-- Numeric view of a value under Python `+` (bools count as 0/1). -/
def pyNumVal : PyVal → Option Rat
  | PyVal.bool b => some (if b then 1 else 0)
  | PyVal.num q => some q
  | _ => Option.none

/-- Embedding of Python `a + b` on decoder values. -/
def pyAdd (a b : PyVal) : Except PyErr PyVal :=
  match pyNumVal a, pyNumVal b with
  | some x, some y => Except.ok (PyVal.num (x + y))
  | _, _ =>
    match a, b with
    | PyVal.str x, PyVal.str y => Except.ok (PyVal.str (x ++ y))
    | PyVal.list x, PyVal.list y => Except.ok (PyVal.list (x ++ y))
    | _, _ => Except.error PyErr.typeError

/-! ### A strict JSON parser (the model of `json.loads`) -/

/-- JSON structural whitespace. -/
def jsonWs (c : Char) : Bool :=
  c == ' ' || c == '\t' || c == '\n' || c == '\r'

/-- Drops leading JSON whitespace. -/
def skipJsonWs (cs : List Char) : List Char :=
  cs.dropWhile jsonWs

/-- Hexadecimal digit value. -/
def hexVal (c : Char) : Option Nat :=
  let n := c.toNat
  if 48 ≤ n ∧ n ≤ 57 then some (n - 48)
  else if 97 ≤ n ∧ n ≤ 102 then some (n - 87)
  else if 65 ≤ n ∧ n ≤ 70 then some (n - 55)
  else Option.none

/-- Single-character JSON escape codes. -/
def jsonEscape : Char → Option Char
  | '"' => some '"'
  | '\\' => some '\\'
  | '/' => some '/'
  | 'b' => some (Char.ofNat 8)
  | 'f' => some (Char.ofNat 12)
  | 'n' => some '\n'
  | 'r' => some '\r'
  | 't' => some '\t'
  | _ => Option.none

/-- Parses the body of a JSON string after the opening quote; strict mode, so
unescaped control characters are rejected. -/
def parseStrBody (acc : List Char) : List Char → Option (String × List Char)
  | '"' :: r => some (String.mk acc.reverse, r)
  | '\\' :: 'u' :: a :: b :: c :: d :: r =>
    (match hexVal a, hexVal b, hexVal c, hexVal d with
     | some va, some vb, some vc, some vd =>
       parseStrBody (Char.ofNat (((va * 16 + vb) * 16 + vc) * 16 + vd) :: acc) r
     | _, _, _, _ => Option.none)
  | '\\' :: e :: r =>
    (match jsonEscape e with
     | some ch => parseStrBody (ch :: acc) r
     | Option.none => Option.none)
  | c :: r => if c.toNat < 32 then Option.none else parseStrBody (c :: acc) r
  | [] => Option.none

/-- Digit run to a natural number. -/
def digitsToNat (ds : List Char) : Nat :=
  ds.foldl (fun a c => a * 10 + (c.toNat - '0'.toNat)) 0

/-- Scales an integer mantissa by a signed power of ten. -/
def ratScale (m : Int) (e : Int) : Rat :=
  if 0 ≤ e then (m : Rat) * (10 : Rat) ^ e.toNat else (m : Rat) / (10 : Rat) ^ (-e).toNat

/-- Parses a JSON number (strict grammar: no leading zeros, a fraction or
exponent must carry at least one digit). -/
def parseNumber (cs : List Char) : Option (Rat × List Char) :=
  let (neg, cs1) : Bool × List Char := match cs with
    | '-' :: r => (true, r)
    | _ => (false, cs)
  let intDs := cs1.takeWhile Char.isDigit
  let cs2 := cs1.dropWhile Char.isDigit
  if intDs.isEmpty then Option.none
  else if 1 < intDs.length && intDs.headD '0' == '0' then Option.none
  else
    let fracPart : Option (List Char × List Char) := match cs2 with
      | '.' :: r =>
        (match r.takeWhile Char.isDigit with
         | [] => Option.none
         | ds => some (ds, r.dropWhile Char.isDigit))
      | _ => some ([], cs2)
    match fracPart with
    | Option.none => Option.none
    | some (fracDs, cs3) =>
      let expPart : Option (Int × List Char) := match cs3 with
        | 'e' :: r | 'E' :: r =>
          let (sgn, r1) : Int × List Char := match r with
            | '+' :: r2 => (1, r2)
            | '-' :: r2 => (-1, r2)
            | _ => (1, r)
          (match r1.takeWhile Char.isDigit with
           | [] => Option.none
           | eds => some (sgn * (digitsToNat eds : Int), r1.dropWhile Char.isDigit))
        | _ => some (0, cs3)
      match expPart with
      | Option.none => Option.none
      | some (ex, rest) =>
        let mant : Int := (if neg then -1 else 1) * (digitsToNat (intDs ++ fracDs) : Int)
        some (ratScale mant (ex - fracDs.length), rest)

/-- Inserts a key into a dict entry list with Python assignment semantics:
an existing key keeps its position and gets the new value. -/
def insertKey : List (String × PyVal) → String → PyVal → List (String × PyVal)
  | [], k, v => [(k, v)]
  | (k0, v0) :: rest, k, v =>
    if k0 = k then (k0, v) :: rest else (k0, v0) :: insertKey rest k v

/-- Normalizes a raw member list into a Python dict (last duplicate wins). -/
def normObj (pairs : List (String × PyVal)) : List (String × PyVal) :=
  pairs.foldl (fun acc kv => insertKey acc kv.1 kv.2) []

/-- Parser mode: a full value, or the continuation of an array / object after
one element or member has been consumed. -/
inductive PMode where
  | val
  | arrTail
  | objTail

/-- The JSON parser, structurally recursive on a fuel counter so that it is
total and kernel-reducible.  One recursive call always consumes at least one
input character, so initial fuel `length + 1` never runs out. -/
def parseStep : Nat → PMode → List Char → Option (PyVal × List Char)
  | 0, _, _ => Option.none
  | Nat.succ f, PMode.val, cs =>
    (match skipJsonWs cs with
     | 'n' :: 'u' :: 'l' :: 'l' :: r => some (PyVal.none, r)
     | 't' :: 'r' :: 'u' :: 'e' :: r => some (PyVal.bool true, r)
     | 'f' :: 'a' :: 'l' :: 's' :: 'e' :: r => some (PyVal.bool false, r)
     | '"' :: r => (parseStrBody [] r).map (fun p => (PyVal.str p.1, p.2))
     | '[' :: r =>
       (match skipJsonWs r with
        | ']' :: r2 => some (PyVal.list [], r2)
        | r2 =>
          match parseStep f PMode.val r2 with
          | some (v, r3) =>
            (match parseStep f PMode.arrTail r3 with
             | some (PyVal.list vs, r4) => some (PyVal.list (v :: vs), r4)
             | _ => Option.none)
          | Option.none => Option.none)
     | '{' :: r =>
       (match skipJsonWs r with
        | '}' :: r2 => some (PyVal.dict [], r2)
        | '"' :: r2 =>
          (match parseStrBody [] r2 with
           | some (k, r3) =>
             (match skipJsonWs r3 with
              | ':' :: r4 =>
                (match parseStep f PMode.val r4 with
                 | some (v, r5) =>
                   (match parseStep f PMode.objTail r5 with
                    | some (PyVal.dict ms, r6) =>
                      some (PyVal.dict (normObj ((k, v) :: ms)), r6)
                    | _ => Option.none)
                 | Option.none => Option.none)
              | _ => Option.none)
           | Option.none => Option.none)
        | _ => Option.none)
     | c :: rest =>
       if c == '-' || c.isDigit then
         (parseNumber (c :: rest)).map (fun p => (PyVal.num p.1, p.2))
       else Option.none
     | [] => Option.none)
  | Nat.succ f, PMode.arrTail, cs =>
    (match skipJsonWs cs with
     | ']' :: r => some (PyVal.list [], r)
     | ',' :: r =>
       (match parseStep f PMode.val r with
        | some (v, r2) =>
          (match parseStep f PMode.arrTail r2 with
           | some (PyVal.list vs, r3) => some (PyVal.list (v :: vs), r3)
           | _ => Option.none)
        | Option.none => Option.none)
     | _ => Option.none)
  | Nat.succ f, PMode.objTail, cs =>
    (match skipJsonWs cs with
     | '}' :: r => some (PyVal.dict [], r)
     | ',' :: r =>
       (match skipJsonWs r with
        | '"' :: r2 =>
          (match parseStrBody [] r2 with
           | some (k, r3) =>
             (match skipJsonWs r3 with
              | ':' :: r4 =>
                (match parseStep f PMode.val r4 with
                 | some (v, r5) =>
                   (match parseStep f PMode.objTail r5 with
                    | some (PyVal.dict ms, r6) => some (PyVal.dict ((k, v) :: ms), r6)
                    | _ => Option.none)
                 | Option.none => Option.none)
              | _ => Option.none)
           | Option.none => Option.none)
        | _ => Option.none)
     | _ => Option.none)

/-- Model of `json.loads`: `Option.none` plays the role of `JSONDecodeError`
(trailing non-whitespace input is an error, as in Python). -/
def jsonLoads (s : String) : Option PyVal :=
  match parseStep (s.data.length + 1) PMode.val s.data with
  | some (v, rest) => if skipJsonWs rest = [] then some v else Option.none
  | Option.none => Option.none

/-! ### The stream decoder `Runner._parse_json_output` -/

/-- Mutable state of the decoding loop: the accumulators and the fields of the
`result` dict (`modelId` embeds the dict key `model`). -/
structure DecSt where
  textParts : List String := []
  skillsInvoked : List PyVal := []
  toolsUsed : List PyVal := []
  modelId : PyVal := PyVal.none
  skillsAvailable : PyVal := PyVal.list []
  mcpServers : PyVal := PyVal.list []
  durationMs : PyVal := PyVal.none
  numTurns : PyVal := PyVal.none
  totalCostUsd : PyVal := PyVal.none
  inputTokens : PyVal := PyVal.none
  outputTokens : PyVal := PyVal.none

/-- The `system`/`init` branch of the per-line processing. -/
def processInit (st : DecSt) (msg : List (String × PyVal)) : DecSt :=
  if isStrEq (dictGetD msg "type" PyVal.none) "system"
      && isStrEq (dictGetD msg "subtype" PyVal.none) "init" then
    { st with
      modelId := dictGetD msg "model" PyVal.none
      skillsAvailable := dictGetD msg "skills" (PyVal.list [])
      mcpServers :=
        match dictGetD msg "mcp_servers" PyVal.none with
        | PyVal.dict kvs => PyVal.list (kvs.map (fun kv => PyVal.str kv.1))
        | _ => dictGetD msg "mcp_servers" (PyVal.list []) }
  else st

/-- Tail of the `tool_use` branch: if the capability is `Skill`, record the
named document (raising if the `input` field is not a dict). -/
def skillRecord (st1 : DecSt) (kvs : List (String × PyVal)) : Except PyErr DecSt :=
  if isStrEq (dictGetD kvs "name" (PyVal.str "")) "Skill" then
    match pyGet (dictGetD kvs "input" (PyVal.dict [])) "skill" (PyVal.str "") with
    | Except.error e => Except.error e
    | Except.ok skillName =>
      if pyTruthy skillName then
        Except.ok { st1 with skillsInvoked := st1.skillsInvoked ++ [skillName] }
      else Except.ok st1
  else Except.ok st1

/-- One content segment of an assistant message (the body of the inner loop). -/
def processContent (st : DecSt) (content : PyVal) : Except PyErr DecSt :=
  match content with
  | PyVal.dict kvs =>
    if isStrEq (dictGetD kvs "type" PyVal.none) "text" then
      match pyStripVal (dictGetD kvs "text" (PyVal.str "")) with
      | Except.error e => Except.error e
      | Except.ok text =>
        if text ≠ "" then Except.ok { st with textParts := st.textParts ++ [text] }
        else Except.ok st
    else if isStrEq (dictGetD kvs "type" PyVal.none) "tool_use" then
      if pyTruthy (dictGetD kvs "name" (PyVal.str "")) then
        match pySetAdd st.toolsUsed (dictGetD kvs "name" (PyVal.str "")) with
        | Except.error e => Except.error e
        | Except.ok tu => skillRecord { st with toolsUsed := tu } kvs
      else skillRecord st kvs
    else Except.ok st
  | _ => Except.ok st

/-- The inner loop over an assistant message's content segments. -/
def processContents (st : DecSt) : List PyVal → Except PyErr DecSt
  | [] => Except.ok st
  | c :: cs =>
    match processContent st c with
    | Except.error e => Except.error e
    | Except.ok st1 => processContents st1 cs

/-- The `assistant` branch: iterate `msg.get("message", {}).get("content", [])`. -/
def processAssistant (st : DecSt) (msg : List (String × PyVal)) : Except PyErr DecSt :=
  if isStrEq (dictGetD msg "type" PyVal.none) "assistant" then
    match pyGet (dictGetD msg "message" (PyVal.dict [])) "content" (PyVal.list []) with
    | Except.error e => Except.error e
    | Except.ok contentVal =>
      match pyIter contentVal with
      | Except.error e => Except.error e
      | Except.ok contents => processContents st contents
  else Except.ok st

/-- The `result` branch: run metadata, summed token counts. -/
def processResult (st : DecSt) (msg : List (String × PyVal)) : Except PyErr DecSt :=
  if isStrEq (dictGetD msg "type" PyVal.none) "result" then
    let usage := dictGetD msg "usage" (PyVal.dict [])
    match pyGet usage "input_tokens" (PyVal.num 0) with
    | Except.error e => Except.error e
    | Except.ok a =>
      match pyGet usage "cache_read_input_tokens" (PyVal.num 0) with
      | Except.error e => Except.error e
      | Except.ok b =>
        match pyGet usage "cache_creation_input_tokens" (PyVal.num 0) with
        | Except.error e => Except.error e
        | Except.ok c =>
          match pyAdd a b with
          | Except.error e => Except.error e
          | Except.ok ab =>
            match pyAdd ab c with
            | Except.error e => Except.error e
            | Except.ok abc =>
              match pyGet usage "output_tokens" PyVal.none with
              | Except.error e => Except.error e
              | Except.ok outTok =>
                Except.ok { st with
                  durationMs := dictGetD msg "duration_ms" PyVal.none
                  numTurns := dictGetD msg "num_turns" PyVal.none
                  totalCostUsd := dictGetD msg "total_cost_usd" PyVal.none
                  inputTokens := abc
                  outputTokens := outTok }
  else Except.ok st

/-- One decoded JSON object line: the three (mutually exclusive) typed branches
run in source order. -/
def processMsg (st : DecSt) (msg : List (String × PyVal)) : Except PyErr DecSt :=
  match processAssistant (processInit st msg) msg with
  | Except.error e => Except.error e
  | Except.ok st2 => processResult st2 msg

/-- One raw line of the stream: blank lines, lines that fail `json.loads` and
lines parsing to a non-object are skipped. -/
def decodeLine (st : DecSt) (line : String) : Except PyErr DecSt :=
  if pyStrip line = "" then Except.ok st
  else
    match jsonLoads line with
    | some (PyVal.dict kvs) => processMsg st kvs
    | some _ => Except.ok st
    | Option.none => Except.ok st

/-- The line loop of `Runner._parse_json_output`, from a given state. -/
def decodeLinesFrom (st : DecSt) : List String → Except PyErr DecSt
  | [] => Except.ok st
  | l :: ls =>
    match decodeLine st l with
    | Except.error e => Except.error e
    | Except.ok st1 => decodeLinesFrom st1 ls

/-- The line loop of `Runner._parse_json_output`. -/
def decodeLines (ls : List String) : Except PyErr DecSt :=
  decodeLinesFrom {} ls

/-- The normalized record returned by `Runner._parse_json_output`. -/
structure ParseOut where
  outputText : String
  skillsInvoked : List PyVal
  toolsUsed : List PyVal
  modelId : PyVal
  skillsAvailable : PyVal
  mcpServers : PyVal
  durationMs : PyVal
  numTurns : PyVal
  totalCostUsd : PyVal
  inputTokens : PyVal
  outputTokens : PyVal

/-- Final assembly of the result record, joining text parts double-newlined. -/
def finalize (st : DecSt) : ParseOut :=
  { outputText := pyJoin "\n\n" st.textParts
    skillsInvoked := st.skillsInvoked
    toolsUsed := st.toolsUsed
    modelId := st.modelId
    skillsAvailable := st.skillsAvailable
    mcpServers := st.mcpServers
    durationMs := st.durationMs
    numTurns := st.numTurns
    totalCostUsd := st.totalCostUsd
    inputTokens := st.inputTokens
    outputTokens := st.outputTokens }

/-- Embedding of `Runner._parse_json_output`: strip, split into lines, fold. -/
def parseJsonOutput (jsonStr : String) : Except PyErr ParseOut :=
  match decodeLines (pySplit (pyStrip jsonStr) '\n') with
  | Except.error e => Except.error e
  | Except.ok st => Except.ok (finalize st)

/-! ### Characterizations of the decoder's extraction, used to state what the
assistant-turn events contribute (they mirror the non-raising path of the
corresponding decoder branch). -/

/-- Text segments contributed by one content segment. -/
def textOfContent : PyVal → List String
  | PyVal.dict kvs =>
    if isStrEq (dictGetD kvs "type" PyVal.none) "text" then
      match dictGetD kvs "text" (PyVal.str "") with
      | PyVal.str s => if pyStrip s ≠ "" then [pyStrip s] else []
      | _ => []
    else []
  | _ => []

/-- The reference documents recorded by the `Skill` tail of one `tool_use`
segment (on the non-raising path). -/
def skillNameList (kvs : List (String × PyVal)) : List PyVal :=
  if isStrEq (dictGetD kvs "name" (PyVal.str "")) "Skill" then
    match dictGetD kvs "input" (PyVal.dict []) with
    | PyVal.dict inp =>
      if pyTruthy (dictGetD inp "skill" (PyVal.str "")) then
        [dictGetD inp "skill" (PyVal.str "")]
      else []
    | _ => []
  else []

/-- Skill invocations contributed by one content segment. -/
def skillsOfContent : PyVal → List PyVal
  | PyVal.dict kvs =>
    if isStrEq (dictGetD kvs "type" PyVal.none) "tool_use" then skillNameList kvs
    else []
  | _ => []

/-- Truthy capability names contributed by one content segment. -/
def toolNamesOfContent : PyVal → List PyVal
  | PyVal.dict kvs =>
    if isStrEq (dictGetD kvs "type" PyVal.none) "tool_use"
        && pyTruthy (dictGetD kvs "name" (PyVal.str "")) then
      [dictGetD kvs "name" (PyVal.str "")]
    else []
  | _ => []

/-- The content list iterated for an assistant message (empty on the shapes
whose iteration would raise; those are excluded by the success hypothesis). -/
def msgContents (kvs : List (String × PyVal)) : List PyVal :=
  match dictGetD kvs "message" (PyVal.dict []) with
  | PyVal.dict mkvs =>
    (match dictGetD mkvs "content" (PyVal.list []) with
     | PyVal.list l => l
     | PyVal.str s => s.data.map (fun c => PyVal.str (String.mk [c]))
     | PyVal.dict ckvs => ckvs.map (fun kv => PyVal.str kv.1)
     | _ => [])
  | _ => []

/-- Assistant-message content segments carried by one raw line. -/
def lineContents (line : String) : List PyVal :=
  if pyStrip line = "" then []
  else
    match jsonLoads line with
    | some (PyVal.dict kvs) =>
      if isStrEq (dictGetD kvs "type" PyVal.none) "assistant" then msgContents kvs else []
    | _ => []

/-- Text segments carried by one raw line, in arrival order. -/
def lineTexts (line : String) : List String :=
  (lineContents line).flatMap textOfContent

/-- Skill invocations carried by one raw line, in arrival order. -/
def lineSkills (line : String) : List PyVal :=
  (lineContents line).flatMap skillsOfContent

/-- Truthy tool names carried by one raw line. -/
def lineToolNames (line : String) : List PyVal :=
  (lineContents line).flatMap toolNamesOfContent

/-! ## The supervision loop of `Runner.run_claude`

The loop polls the child process, checks the total-runtime and stall timers,
and reads one line when available.  The external world (process exit status,
wall-clock readings, line availability) enters as a trace of per-iteration
observations; times are whole seconds. -/

/-- The supervisor's observations during one iteration of the read loop:
the `proc.poll()` result at the loop head, the wall-clock reading, and the
line returned by `_read_output_line` (if any). -/
structure IterObs where
  poll : Option Int
  now : Nat
  line : Option String

/-- How the read loop ended.  `ranOut` is the model artifact of a finite
observation trace ending while the process still runs. -/
inductive LoopExit where
  | exited (code : Int)
  | timedOut
  | stalled
  | ranOut
  deriving DecidableEq, Repr

/-- Outcome of the read loop. -/
structure LoopOut where
  exit : LoopExit
  errMsg : Option String
  stdoutLines : List String

/-- The total-timeout cause string (`timeout // 60` minutes, as in source). -/
def timeoutMsg (timeout : Nat) : String :=
  "Timeout after " ++ toString (timeout / 60) ++ " minutes"

/-- The stall cause string. -/
def stallMsg (stallTimeout : Nat) : String :=
  "Stalled for " ++ toString stallTimeout ++ "s (possibly waiting for approval)"

/-- Embedding of the `while proc.poll() is None` loop of `Runner.run_claude`:
total timeout checked first, then the stall timer (reset on every received
line), then a line read. -/
def supLoop (timeout stallTimeout startTime : Nat) :
    Nat → List String → List IterObs → LoopOut
  | _, acc, [] => ⟨LoopExit.ranOut, Option.none, acc⟩
  | lastOut, acc, ob :: rest =>
    match ob.poll with
    | some code => ⟨LoopExit.exited code, Option.none, acc⟩
    | Option.none =>
      if timeout < ob.now - startTime then
        ⟨LoopExit.timedOut, some (timeoutMsg timeout), acc⟩
      else if stallTimeout < ob.now - lastOut then
        ⟨LoopExit.stalled, some (stallMsg stallTimeout), acc⟩
      else
        match ob.line with
        | some l => supLoop timeout stallTimeout startTime ob.now (acc ++ [l]) rest
        | Option.none => supLoop timeout stallTimeout startTime lastOut acc rest

/-- The success/error pair computed by the tail of `Runner.run_claude`:
an error message short-circuits to failure, otherwise success is
`proc.returncode == 0` (the code `poll()` reported at normal exit; the
`ranOut` artifact is unreachable under the theorems' hypotheses). -/
def runClaudeVerdict (lo : LoopOut) : Bool × Option String :=
  match lo.errMsg with
  | some e => (false, some e)
  | Option.none =>
    match lo.exit with
    | LoopExit.exited code => (code == 0, Option.none)
    | _ => (false, Option.none)

/-- The whole supervised run on a trace, as a success/error pair. -/
def runClaudeOutcome (timeout stallTimeout startTime : Nat) (trace : List IterObs) :
    Bool × Option String :=
  runClaudeVerdict (supLoop timeout stallTimeout startTime startTime [] trace)

/-! ## The filesystem model and `_find_changed_files`

Directory trees are finite: a directory's listing is encoded in the
constructor spine (`dnil` / `dcons name child rest`), which keeps every
function structurally recursive.  A file carries its content and an abstract
stat signature `sig` (size/mtime), so that `filecmp.cmp(shallow=True)` can be
embedded faithfully: equal signatures short-circuit to equality, otherwise
contents are compared.  Path and listing order is inherited from the spine;
the claims under verification only concern membership and emptiness of the
result, never its order. -/

inductive FSTree where
  | file (content : String) (sig : Nat)
  | dnil
  | dcons (name : String) (child : FSTree) (rest : FSTree)
  deriving DecidableEq, Repr

/-- Names listed in a directory spine. -/
def spineNames : FSTree → List String
  | FSTree.dcons n _ rest => n :: spineNames rest
  | _ => []

/-- Entries of a directory spine. -/
def spineEntries : FSTree → List (String × FSTree)
  | FSTree.dcons n c rest => (n, c) :: spineEntries rest
  | _ => []

/-- First entry with the given name in a directory spine. -/
def lookupEntry : FSTree → String → Option FSTree
  | FSTree.dcons m child rest, n => if m = n then some child else lookupEntry rest n
  | _, _ => Option.none

/-- Resolves a relative path (list of components) inside a tree. -/
def lookupPath : FSTree → List String → Option FSTree
  | t, [] => some t
  | t, n :: rest => match lookupEntry t n with
    | some c => lookupPath c rest
    | Option.none => Option.none

/-- Real directories never list a name twice; the comparison functions assume
this, so the theorems carry it as a hypothesis. -/
def treeNodup : FSTree → Bool
  | FSTree.file _ _ => true
  | FSTree.dnil => true
  | FSTree.dcons n c rest =>
    !((spineNames rest).contains n) && treeNodup c && treeNodup rest

/-- Embedding of `filecmp.cmp(shallow=True)`: equal stat signatures compare
equal without reading; otherwise contents are compared. -/
def shallowCmp (c1 : String) (s1 : Nat) (c2 : String) (s2 : Nat) : Bool :=
  s1 == s2 || c1 == c2

/-- Embedding of the `item.rglob("*")` collection over a newly-introduced
directory (and of the missing-original branch): all files below the tree,
keeping only those whose own final name is not excluded — as in the source,
names of intermediate directories are not checked. -/
def rglobFilesExcl (excl : List String) : FSTree → List (List String)
  | FSTree.file _ _ => []
  | FSTree.dnil => []
  | FSTree.dcons n (FSTree.file _ _) rest =>
    if excl.contains n then rglobFilesExcl excl rest
    else [n] :: rglobFilesExcl excl rest
  | FSTree.dcons n child rest =>
    (rglobFilesExcl excl child).map (fun p => n :: p) ++ rglobFilesExcl excl rest

/-- Embedding of `_compare_dirs` over a `filecmp.dircmp` built with
`ignore=exclude_names`: differing common files are reported, right-only files
and directories are reported (directories via `rglob`), and common
directories are recursed into; a common name with mismatched types is
`common_funny` and ignored.  Iteration follows the modified tree's spine. -/
def compareDirs (excl : List String) : FSTree → FSTree → List (List String)
  | _, FSTree.file _ _ => []
  | _, FSTree.dnil => []
  | a, FSTree.dcons n child rest =>
    let tail := compareDirs excl a rest
    if excl.contains n then tail
    else
      match lookupEntry a n with
      | Option.none =>
        (match child with
         | FSTree.file _ _ => [n] :: tail
         | _ => (rglobFilesExcl excl child).map (fun p => n :: p) ++ tail)
      | some ae =>
        match child with
        | FSTree.file c2 s2 =>
          (match ae with
           | FSTree.file c1 s1 => if shallowCmp c1 s1 c2 s2 then tail else [n] :: tail
           | _ => tail)
        | _ =>
          (match ae with
           | FSTree.file _ _ => tail
           | _ => (compareDirs excl ae child).map (fun p => n :: p) ++ tail)

/-- Embedding of `_find_changed_files`: `Option.none` for the original
directory models `not original_dir or not original_dir.exists()`. -/
def findChangedFiles (orig : Option FSTree) (modified : FSTree) (excl : List String) :
    List (List String) :=
  match orig with
  | Option.none => rglobFilesExcl excl modified
  | some a => compareDirs excl a modified

/-- Same tree shape, same file contents; stat signatures are unconstrained
(two structurally identical trees on disk have independent mtimes). -/
def sameContent : FSTree → FSTree → Bool
  | FSTree.file c1 _, FSTree.file c2 _ => c1 == c2
  | FSTree.dnil, FSTree.dnil => true
  | FSTree.dcons n1 c1 r1, FSTree.dcons n2 c2 r2 =>
    n1 == n2 && sameContent c1 c2 && sameContent r1 r2
  | _, _ => false

/-- Embedding of copying a flagged file's new content back into the original
tree (`shutil.copy` semantics: content replaced, fresh stat signature). -/
def setFileAt : FSTree → List String → String → Nat → FSTree
  | FSTree.dcons m child rest, n :: ps, c, ns =>
    if m = n then
      match ps with
      | [] => FSTree.dcons m (FSTree.file c ns) rest
      | _ => FSTree.dcons m (setFileAt child ps c ns) rest
    else FSTree.dcons m child (setFileAt rest (n :: ps) c ns)
  | t, _, _, _ => t

/-! ## The task pipeline: `Runner.run_scenario` and `Runner.run_parallel`

The per-task pipeline performs I/O at every step; the steps' externally
determined outcomes (environment build success, the supervised run's result)
enter as a per-task oracle, and the pipeline's own control flow — what is
persisted when, what is returned, what escapes as an exception — is embedded
from the source.  Completion order of the worker pool is abstracted to
submission order; the verified claims are order-independent. -/

/-- Identity slice of a `Scenario`. -/
structure ScenarioM where
  name : String

/-- Identity slice of a `SkillSet`. -/
structure SkillSetM where
  name : String

/-- A `RunTask`: one scenario paired with one skill set. -/
structure RunTaskM where
  scenario : ScenarioM
  skillSet : SkillSetM

/-- The fields of a `RunResult`. -/
structure RunResultM where
  scenarioName : String
  skillSetName : String
  output : String
  success : Bool
  error : Option String
  skillsInvoked : List PyVal := []
  toolsUsed : List PyVal := []

/-- Externally determined outcomes of one task's pipeline steps:
whether `prepare_environment` raises, what `run_claude` returns, and the
change set the detector finds. -/
structure StepOracle where
  buildResult : Except String Unit
  claudeParsed : ParseOut
  claudeSuccess : Bool
  claudeError : Option String
  claudeRaw : String
  changedFiles : List (List String)

/-- Artifact paths (relative to the task's output directory) written by
`run_scenario`, and the metadata keys persisted in `metadata.yaml`. -/
structure Artifacts where
  files : List (List String)
  metadataKeys : List String

/-- The metadata keys always written by `run_scenario`. -/
def baseMetadataKeys : List String :=
  ["success", "skills_invoked", "skills_available", "tools_used", "mcp_servers",
   "model", "duration_ms", "num_turns", "total_cost_usd", "input_tokens",
   "output_tokens"]

/-- Embedding of `Runner.run_scenario` for one task: an environment-build
exception escapes (`Except.error`); otherwise the supervised run's outcome is
recorded — `output.md`, `raw.jsonl`, `metadata.yaml` (with an `error` key
exactly when the error string is truthy) and the changed files under
`changes/` — and a `RunResult` is returned. -/
def runScenarioM (task : RunTaskM) (ox : StepOracle) :
    Except String (RunResultM × Artifacts) :=
  match ox.buildResult with
  | Except.error e => Except.error e
  | Except.ok _ =>
    Except.ok
      ({ scenarioName := task.scenario.name
         skillSetName := task.skillSet.name
         output := ox.claudeParsed.outputText
         success := ox.claudeSuccess
         error := ox.claudeError
         skillsInvoked := ox.claudeParsed.skillsInvoked
         toolsUsed := ox.claudeParsed.toolsUsed },
       { files := [["output.md"], ["raw.jsonl"], ["metadata.yaml"]]
           ++ ox.changedFiles.map (fun p => "changes" :: p)
         metadataKeys := baseMetadataKeys
           ++ (match ox.claudeError with
               | some e => if e ≠ "" then ["error"] else []
               | Option.none => []) })

/-- The failure `RunResult` built in `run_parallel`'s `except` handler. -/
def unexpectedErrorResult (task : RunTaskM) (e : String) : RunResultM :=
  { scenarioName := task.scenario.name
    skillSetName := task.skillSet.name
    output := ""
    success := false
    error := some ("Unexpected error: " ++ e) }

/-- Embedding of `Runner.run_parallel` over a per-task pipeline: a pipeline
exception is caught and converted, never propagated; every submitted task
yields exactly one result. -/
def runParallel (pipeline : RunTaskM → Except String RunResultM)
    (tasks : List RunTaskM) : List RunResultM :=
  tasks.map (fun t =>
    match pipeline t with
    | Except.ok r => r
    | Except.error e => unexpectedErrorResult t e)

/-- One task run through the scheduler: the result the caller sees together
with the artifacts that were persisted for the task (none when the pipeline
escaped with an exception, since `run_parallel` only builds a `RunResult`). -/
def runTaskRecorded (task : RunTaskM) (ox : StepOracle) : RunResultM × Artifacts :=
  match runScenarioM task ox with
  | Except.ok (r, arts) => (r, arts)
  | Except.error e => (unexpectedErrorResult task e, ⟨[], []⟩)

/-! ## Environment building: `_copy_local_skill`, `_download_skill` and the
skills loop of `prepare_environment` -/

/-- What the filesystem says about a local reference-document path, relative
to the repository root. -/
inductive LocalPathInfo where
  | missing
  | isDir (dirName : String)
  | isFile (parentName : String)

/-- A placement of skill material into the environment's skills directory. -/
inductive SkillWrite where
  | copiedTree (folder : String)
  | copiedFile (folder : String) (fileName : String)
  | downloaded (folder : String) (content : String)
  deriving DecidableEq, Repr

/-- Embedding of `Runner._copy_local_skill`: a missing source path returns
silently with no copy; a directory is copied wholesale; a single file is
copied as `<parent>/SKILL.md`. -/
def copyLocalSkill (info : LocalPathInfo) : List SkillWrite :=
  match info with
  | LocalPathInfo.missing => []
  | LocalPathInfo.isDir d => [SkillWrite.copiedTree d]
  | LocalPathInfo.isFile parent => [SkillWrite.copiedFile parent "SKILL.md"]

/-- Embedding of `Runner._download_skill` over a fetch oracle (the
`urllib.request.urlopen` call): the URL is normalized, the folder name
derived, and a fetch failure raises the descriptive `RuntimeError`. -/
def downloadSkill (fetch : String → Except String String) (url : String) :
    Except String (List SkillWrite) :=
  let downloadUrl := normalizeGithubUrl url
  match fetch downloadUrl with
  | Except.ok content => Except.ok [SkillWrite.downloaded (downloadSkillFolderName url) content]
  | Except.error e =>
    Except.error ("Failed to download skill from " ++ downloadUrl ++ ": " ++ e)

/-- Embedding of the skills loop of `Runner.prepare_environment`, from an
accumulator of writes already made: each entry is dispatched on `_is_url`;
the first raising entry aborts the build. -/
def prepareSkillsFrom (fetch : String → Except String String)
    (fsInfo : String → LocalPathInfo) (acc : List SkillWrite) :
    List String → Except String (List SkillWrite)
  | [] => Except.ok acc
  | sp :: rest =>
    if isUrl sp then
      match downloadSkill fetch sp with
      | Except.error e => Except.error e
      | Except.ok w => prepareSkillsFrom fetch fsInfo (acc ++ w) rest
    else prepareSkillsFrom fetch fsInfo (acc ++ copyLocalSkill (fsInfo sp)) rest

/-- The skills loop of `Runner.prepare_environment`. -/
def prepareSkills (fetch : String → Except String String)
    (fsInfo : String → LocalPathInfo) (skills : List String) :
    Except String (List SkillWrite) :=
  prepareSkillsFrom fetch fsInfo [] skills

/-! ## Side conditions and small values used by theorem statements -/

/-- Well-formedness of one URL path segment: nonempty and free of the
delimiter characters that would change how `urlparse` carves the URL. -/
def goodSeg (s : String) : Prop :=
  s ≠ "" ∧ ∀ c ∈ s.data, c ≠ '/' ∧ c ≠ '#' ∧ c ≠ '?' ∧ c ≠ ';'

/-- Well-formedness of a hostname for the same purpose. -/
def goodHost (h : String) : Prop :=
  h ≠ "" ∧ ∀ c ∈ h.data, c ≠ '/' ∧ c ≠ '#' ∧ c ≠ '?' ∧ c ≠ ';'

instance (s : String) : Decidable (goodSeg s) := by
  unfold goodSeg
  infer_instance

instance (h : String) : Decidable (goodHost h) := by
  unfold goodHost
  infer_instance

/-- A raw line the decoder skips: blank, not JSON, or JSON but not an object. -/
def skippedLine (line : String) : Prop :=
  pyStrip line = ""
  ∨ jsonLoads line = Option.none
  ∨ ∃ v, jsonLoads line = some v ∧ ∀ kvs, v ≠ PyVal.dict kvs

/-- The record produced from the initial decoder state. -/
def emptyParseOut : ParseOut :=
  finalize {}

/-! # Theorems

Helper lemmas first, then for each claim its theorem (and witness or
counterexample where required). -/

/-! ## Generic list and string lemmas -/

theorem strExt {a b : String} (h : a.data = b.data) : a = b := by
  obtain ⟨la⟩ := a
  obtain ⟨lb⟩ := b
  cases h
  rfl

theorem data_append (a b : String) : (a ++ b).data = a.data ++ b.data := rfl

theorem mk_data (s : String) : String.mk s.data = s := by
  obtain ⟨l⟩ := s
  rfl

theorem takeWhile_append_all {α} (p : α → Bool) (xs ys : List α)
    (h : ∀ c ∈ xs, p c = true) :
    (xs ++ ys).takeWhile p = xs ++ ys.takeWhile p := by
  induction xs with
  | nil => simp
  | cons x xs ih =>
    have hx := h x (by simp)
    simp [List.takeWhile_cons, hx]
    exact ih (fun c hc => h c (by simp [hc]))

theorem dropWhile_append_all {α} (p : α → Bool) (xs ys : List α)
    (h : ∀ c ∈ xs, p c = true) :
    (xs ++ ys).dropWhile p = ys.dropWhile p := by
  induction xs with
  | nil => simp
  | cons x xs ih =>
    have hx := h x (by simp)
    simp [List.dropWhile_cons, hx]
    exact ih (fun c hc => h c (by simp [hc]))

theorem takeWhile_all {α} (p : α → Bool) (xs : List α)
    (h : ∀ c ∈ xs, p c = true) : xs.takeWhile p = xs := by
  have := takeWhile_append_all p xs [] h
  simpa using this

theorem dropWhile_all {α} (p : α → Bool) (xs : List α)
    (h : ∀ c ∈ xs, p c = true) : xs.dropWhile p = [] := by
  have := dropWhile_append_all p xs [] h
  simpa using this

theorem mem_of_mem_takeWhile {α} {p : α → Bool} {a : α} :
    ∀ {xs : List α}, a ∈ xs.takeWhile p → a ∈ xs
  | x :: xs, h => by
    by_cases hx : p x = true
    · simp [List.takeWhile_cons, hx] at h
      rcases h with h | h
      · simp [h]
      · exact List.mem_cons_of_mem x (mem_of_mem_takeWhile h)
    · simp [List.takeWhile_cons, Bool.of_not_eq_true hx] at h

theorem head?_append_left {α} (l m : List α) (h : l ≠ []) :
    (l ++ m).head? = l.head? := by
  cases l with
  | nil => exact absurd rfl h
  | cons x xs => rfl

theorem pySplitChar_no_sep (sep : Char) (xs : List Char) (h : sep ∉ xs) :
    pySplitChar sep xs = [xs] := by
  induction xs with
  | nil => rfl
  | cons x xs ih =>
    have hx : ¬(x = sep) := fun hc => h (by simp [hc])
    have ih2 := ih (fun hc => h (List.mem_cons_of_mem x hc))
    simp [pySplitChar, hx, ih2]

theorem pySplitChar_append (sep : Char) (xs rest : List Char) (h : sep ∉ xs) :
    pySplitChar sep (xs ++ sep :: rest) = xs :: pySplitChar sep rest := by
  induction xs with
  | nil => simp [pySplitChar]
  | cons x xs ih =>
    have hx : ¬(x = sep) := fun hc => h (by simp [hc])
    have ih2 := ih (fun hc => h (List.mem_cons_of_mem x hc))
    simp [pySplitChar, hx, ih2]

theorem pyJoin_cons_cons (sep x y : String) (rest : List String) :
    pyJoin sep (x :: y :: rest) = x ++ sep ++ pyJoin sep (y :: rest) := rfl

theorem pyJoin_data_cons (x y : String) (rest : List String) :
    (pyJoin "/" (x :: y :: rest)).data
      = x.data ++ '/' :: (pyJoin "/" (y :: rest)).data := by
  rw [pyJoin_cons_cons]
  simp [data_append]

theorem pySplit_join (parts : List String) (hne : parts ≠ [])
    (h : ∀ s ∈ parts, '/' ∉ s.data) :
    pySplit (pyJoin "/" parts) '/' = parts := by
  induction parts with
  | nil => exact absurd rfl hne
  | cons x rest ih =>
    cases rest with
    | nil =>
      simp only [pySplit]
      rw [show pyJoin "/" [x] = x from rfl]
      rw [pySplitChar_no_sep '/' x.data (h x (by simp))]
      simp [mk_data]
    | cons y rest2 =>
      simp only [pySplit] at ih ⊢
      rw [pyJoin_data_cons, pySplitChar_append '/' _ _ (h x (by simp))]
      have ih2 := ih (by simp) (fun s hs => h s (List.mem_cons_of_mem x hs))
      simp only [List.map_cons, mk_data]
      exact congrArg (fun l => x :: l) ih2

theorem mem_pyJoin_data (parts : List String) (c : Char)
    (hc : c ∈ (pyJoin "/" parts).data) :
    c = '/' ∨ ∃ s ∈ parts, c ∈ s.data := by
  induction parts with
  | nil => simp [pyJoin] at hc
  | cons x rest ih =>
    cases rest with
    | nil =>
      right
      exact ⟨x, by simp, hc⟩
    | cons y rest2 =>
      rw [pyJoin_data_cons] at hc
      rcases List.mem_append.mp hc with h1 | h2
      · exact Or.inr ⟨x, by simp, h1⟩
      · rcases List.mem_cons.mp h2 with h3 | h4
        · exact Or.inl h3
        · rcases ih h4 with h5 | ⟨s, hs, hcs⟩
          · exact Or.inl h5
          · exact Or.inr ⟨s, List.mem_cons_of_mem x hs, hcs⟩

theorem pyJoin_last_head (parts : List String) (file : String)
    (hf : file.data ≠ []) :
    (pyJoin "/" (parts ++ [file])).data.reverse.head? = file.data.reverse.head? := by
  induction parts with
  | nil => rfl
  | cons x rest ih =>
    have hcons : ∃ y rest2, rest ++ [file] = y :: rest2 := by
      cases rest with
      | nil => exact ⟨file, [], rfl⟩
      | cons a b => exact ⟨a, b ++ [file], rfl⟩
    obtain ⟨y, rest2, hyr⟩ := hcons
    have : (pyJoin "/" ((x :: rest) ++ [file])).data
        = x.data ++ '/' :: (pyJoin "/" (rest ++ [file])).data := by
      rw [List.cons_append, hyr, pyJoin_data_cons, ← hyr]
    rw [this]
    have hne : (pyJoin "/" (rest ++ [file])).data.reverse ≠ [] := by
      intro hnil
      rw [hnil] at ih
      have : file.data.reverse ≠ [] := by simpa using hf
      cases hrev : file.data.reverse with
      | nil => exact this hrev
      | cons a l => rw [hrev] at ih; simp at ih
    rw [List.reverse_append, List.reverse_cons, List.append_assoc,
      head?_append_left _ _ hne]
    exact ih

theorem pyRstripSlash_eq_self (s : String)
    (h : ∀ c, s.data.reverse.head? = some c → c ≠ '/') :
    pyRstripSlash s = s := by
  apply strExt
  show (s.data.reverse.dropWhile (fun c => c == '/')).reverse = s.data
  cases hrev : s.data.reverse with
  | nil =>
    have hdat : s.data = [] := by simpa using congrArg List.reverse hrev
    simp [hdat]
  | cons c l =>
    have hc : (c == '/') = false := by
      have := h c (by rw [hrev]; rfl)
      simpa using this
    rw [List.dropWhile_cons]
    simp only [hc, Bool.false_eq_true, if_false]
    rw [← hrev, List.reverse_reverse]

/-! ## Lemmas about the urlparse model -/

theorem schemeSplit_https (rest : List Char) :
    schemeSplit ('h' :: 't' :: 't' :: 'p' :: 's' :: ':' :: rest) = ("https".data, rest) := rfl

theorem netlocSplit_host (host : String) (tail : List Char)
    (hh : ∀ c ∈ host.data, netlocEnd c = false) :
    netlocSplit ('/' :: '/' :: (host.data ++ '/' :: tail)) = (host.data, '/' :: tail) := by
  show (List.takeWhile _ (host.data ++ '/' :: tail),
        List.dropWhile _ (host.data ++ '/' :: tail)) = _
  have hall : ∀ c ∈ host.data, (!(netlocEnd c)) = true := by
    intro c hc
    simp [hh c hc]
  rw [takeWhile_append_all _ _ _ hall, dropWhile_append_all _ _ _ hall]
  have hslash : (!(netlocEnd '/')) = false := by decide
  rw [List.takeWhile_cons, List.dropWhile_cons]
  simp [hslash]

theorem splitAtMark_not_mem (mark : Char) (cs : List Char) (h : mark ∉ cs) :
    splitAtMark mark cs = (cs, []) := by
  unfold splitAtMark
  have hall : ∀ c ∈ cs, (!(c == mark)) = true := by
    intro c hc
    simp
    exact fun he => h (he ▸ hc)
  rw [takeWhile_all _ _ hall, dropWhile_all _ _ hall]

theorem splitParams_no_semi (cs : List Char) (h : ';' ∉ cs) :
    splitParamsChars cs = cs := by
  unfold splitParamsChars
  have hall : ∀ (l : List Char), (∀ c ∈ l, c ∈ cs) →
      ∀ c ∈ l, (!(c == ';')) = true := by
    intro l hsub c hc
    simp
    exact fun he => h (he ▸ hsub c hc)
  by_cases hc : cs.contains '/'
  · simp only [hc, if_true]
    rw [takeWhile_all _ _ (hall _ (by
      intro c hcmem
      exact List.mem_reverse.mp (mem_of_mem_takeWhile (List.mem_reverse.mp hcmem))))]
    rw [← List.reverse_append, List.takeWhile_append_dropWhile, List.reverse_reverse]
  · simp only [hc, if_false]
    exact takeWhile_all _ _ (hall _ (fun c hcm => hcm))

theorem urlparse_https (host tail : String)
    (hh : ∀ c ∈ host.data, c ≠ '/' ∧ c ≠ '#' ∧ c ≠ '?')
    (ht : ∀ c ∈ tail.data, c ≠ '#' ∧ c ≠ '?' ∧ c ≠ ';') :
    urlparse ("https://" ++ host ++ "/" ++ tail)
      = ⟨"https", host, "/" ++ tail, "", ""⟩ := by
  have hdata : ("https://" ++ host ++ "/" ++ tail).data
      = 'h' :: 't' :: 't' :: 'p' :: 's' :: ':' :: ('/' :: '/' ::
          (host.data ++ '/' :: tail.data)) := by
    show (("https://".data ++ host.data) ++ "/".data) ++ tail.data = _
    rw [List.append_assoc, List.append_assoc]
    rfl
  have hnet : ∀ c ∈ host.data, netlocEnd c = false := by
    intro c hc
    obtain ⟨h1, h2, h3⟩ := hh c hc
    simp [netlocEnd, h1, h2, h3]
  have hhash : '#' ∉ '/' :: tail.data := by
    intro hmem
    rcases List.mem_cons.mp hmem with he | hm
    · exact absurd he.symm (by decide)
    · exact (ht _ hm).1 rfl
  have hquery : '?' ∉ '/' :: tail.data := by
    intro hmem
    rcases List.mem_cons.mp hmem with he | hm
    · exact absurd he.symm (by decide)
    · exact (ht _ hm).2.1 rfl
  have hsemi : ';' ∉ '/' :: tail.data := by
    intro hmem
    rcases List.mem_cons.mp hmem with he | hm
    · exact absurd he.symm (by decide)
    · exact (ht _ hm).2.2 rfl
  unfold urlparse
  rw [hdata, schemeSplit_https]
  dsimp only
  rw [netlocSplit_host host tail.data hnet]
  dsimp only
  rw [splitAtMark_not_mem _ _ hhash]
  dsimp only
  rw [splitAtMark_not_mem _ _ hquery]
  dsimp only
  rw [splitParams_no_semi _ hsemi]
  have hpath : String.mk ('/' :: tail.data) = "/" ++ tail := rfl
  rw [show String.mk "https".data = "https" from mk_data _, mk_data, hpath]

/-! ## Lemmas for the URL to folder-name pipeline -/

theorem data_empty : ("" : String).data = [] := rfl

theorem pyJoin_single (sep x : String) : pyJoin sep [x] = x := rfl

theorem goodSeg_no_slash {s : String} (h : goodSeg s) : '/' ∉ s.data :=
  fun hc => (h.2 '/' hc).1 rfl

theorem goodSeg_tail {parts : List String} (h : ∀ s ∈ parts, goodSeg s) :
    ∀ c ∈ (pyJoin "/" parts).data, c ≠ '#' ∧ c ≠ '?' ∧ c ≠ ';' := by
  intro c hc
  rcases mem_pyJoin_data parts c hc with he | ⟨s, hs, hcs⟩
  · subst he
    exact ⟨by decide, by decide, by decide⟩
  · obtain ⟨_, h2⟩ := h s hs
    exact ⟨(h2 c hcs).2.1, (h2 c hcs).2.2.1, (h2 c hcs).2.2.2⟩

theorem goodHost_chars {h : String} (hg : goodHost h) :
    ∀ c ∈ h.data, c ≠ '/' ∧ c ≠ '#' ∧ c ≠ '?' := by
  intro c hc
  obtain ⟨_, h2⟩ := hg
  exact ⟨(h2 c hc).1, (h2 c hc).2.1, (h2 c hc).2.2.1⟩

theorem pySplit_slash_join (parts : List String) (hne : parts ≠ [])
    (h : ∀ s ∈ parts, '/' ∉ s.data) :
    pySplit ("/" ++ pyJoin "/" parts) '/' = "" :: parts := by
  have hstep : pySplitChar '/' ('/' :: (pyJoin "/" parts).data)
      = [] :: pySplitChar '/' (pyJoin "/" parts).data := by
    simp [pySplitChar]
  simp only [pySplit]
  rw [show ("/" ++ pyJoin "/" parts).data = '/' :: (pyJoin "/" parts).data from rfl, hstep]
  simp only [List.map_cons]
  have hjoin := pySplit_join parts hne h
  simp only [pySplit] at hjoin
  rw [hjoin]

theorem filter_nonempty (parts : List String) (h : ∀ s ∈ parts, s ≠ "") :
    (("" :: parts).filter (fun p => p ≠ "")) = parts := by
  rw [List.filter_cons]
  simp only [ne_eq, not_true_eq_false, decide_False, Bool.false_eq_true, if_false]
  exact List.filter_eq_self.mpr (fun a ha => by simpa using h a ha)

theorem getD_penultimate (ss : List String) (a b : String) :
    (ss ++ [a, b]).getD ((ss ++ [a, b]).length - 2) "" = a := by
  have hlen : (ss ++ [a, b]).length = ss.length + 2 := by simp
  rw [hlen, Nat.add_sub_cancel]
  rw [List.getD_eq_getElem?_getD, List.getElem?_append_right (Nat.le_refl _)]
  simp

theorem rstrip_slash_join (parts : List String) (file : String)
    (hf : file ≠ "") (hfs : '/' ∉ file.data) :
    pyRstripSlash ("/" ++ pyJoin "/" (parts ++ [file]))
      = "/" ++ pyJoin "/" (parts ++ [file]) := by
  apply pyRstripSlash_eq_self
  intro c hc
  rw [show ("/" ++ pyJoin "/" (parts ++ [file])).data
      = '/' :: (pyJoin "/" (parts ++ [file])).data from rfl] at hc
  have hfd : file.data ≠ [] := fun hnil => hf (strExt (by simp [hnil, data_empty]))
  have hJ := pyJoin_last_head parts file hfd
  have hne : (pyJoin "/" (parts ++ [file])).data.reverse ≠ [] := by
    intro h0
    rw [h0] at hJ
    cases hrev : file.data.reverse with
    | nil => exact hfd (by simpa using congrArg List.reverse hrev)
    | cons x l => rw [hrev] at hJ; simp at hJ
  rw [List.reverse_cons, head?_append_left _ _ hne, hJ] at hc
  have hcmem : c ∈ file.data := by
    cases hrev : file.data.reverse with
    | nil => rw [hrev] at hc; simp at hc
    | cons x l =>
      rw [hrev] at hc
      simp at hc
      subst hc
      exact List.mem_reverse.mp (by rw [hrev]; simp)
  intro he
  exact hfs (he ▸ hcmem)

theorem urlparse_host_join (host : String) (parts : List String)
    (hg : goodHost host) (hp : ∀ s ∈ parts, goodSeg s) :
    urlparse ("https://" ++ host ++ "/" ++ pyJoin "/" parts)
      = ⟨"https", host, "/" ++ pyJoin "/" parts, "", ""⟩ :=
  urlparse_https host (pyJoin "/" parts) (goodHost_chars hg) (goodSeg_tail hp)

theorem normalizeGithubUrl_of_ne (url : String)
    (h : (urlparse url).netloc ≠ "github.com") : normalizeGithubUrl url = url := by
  unfold normalizeGithubUrl
  rw [if_pos h]

theorem normalizeGithubUrl_blob (org repo ref : String) (ps : List String)
    (ho : goodSeg org) (hr : goodSeg repo) (hf : goodSeg ref)
    (hp : ∀ s ∈ ps, goodSeg s) :
    normalizeGithubUrl ("https://github.com/" ++ pyJoin "/" ([org, repo, "blob", ref] ++ ps))
      = "https://raw.githubusercontent.com"
          ++ pyJoin "/" ("" :: org :: repo :: ref :: ps) := by
  have hsegs : ∀ s ∈ [org, repo, "blob", ref] ++ ps, goodSeg s := by
    intro s hs
    rcases List.mem_append.mp hs with h1 | h2
    · simp only [List.mem_cons, List.not_mem_nil, or_false] at h1
      rcases h1 with rfl | rfl | rfl | rfl
      · exact ho
      · exact hr
      · exact ⟨by decide, by decide⟩
      · exact hf
    · exact hp s h2
  have hup : urlparse ("https://github.com/" ++ pyJoin "/" ([org, repo, "blob", ref] ++ ps))
      = ⟨"https", "github.com", "/" ++ pyJoin "/" ([org, repo, "blob", ref] ++ ps), "", ""⟩ :=
    urlparse_host_join "github.com" _ ⟨by decide, by decide⟩ hsegs
  unfold normalizeGithubUrl
  rw [hup]
  dsimp only
  rw [if_neg (by simp)]
  rw [pySplit_slash_join _ (by simp) (fun s hs => goodSeg_no_slash (hsegs s hs))]
  rw [if_pos (by
    constructor
    · simp only [List.length_cons, List.length_append, List.length_nil]
      omega
    · rfl)]
  rfl

theorem raw_url_pretty (org repo ref y : String) (ps2 : List String) :
    "https://raw.githubusercontent.com" ++ pyJoin "/" ("" :: org :: repo :: ref :: y :: ps2)
      = "https://raw.githubusercontent.com/" ++ org ++ "/" ++ repo ++ "/" ++ ref ++ "/"
          ++ pyJoin "/" (y :: ps2) := by
  apply strExt
  have hB : ("https://raw.githubusercontent.com/" : String).data
      = ("https://raw.githubusercontent.com" : String).data ++ ['/'] := by decide
  simp only [data_append, pyJoin_cons_cons, data_empty, hB, List.append_assoc,
    List.nil_append, List.singleton_append]
  rfl

/-! ## Claims C4 and C3 -/

/-- C4: every GitHub blob URL `https://github.com/org/repo/blob/ref/path` is
rewritten before fetching to `https://raw.githubusercontent.com/org/repo/ref/path`;
URLs on other hosts, and github.com URLs not in blob form, pass through
unchanged; the spec's concrete example is fetched from its raw form and yields
folder `x`. -/
theorem normalize_github_url_spec :
    (∀ org repo ref y : String, ∀ ps2 : List String,
        goodSeg org → goodSeg repo → goodSeg ref → goodSeg y → (∀ s ∈ ps2, goodSeg s) →
        normalizeGithubUrl
            ("https://github.com/" ++ pyJoin "/" ([org, repo, "blob", ref] ++ y :: ps2))
          = "https://raw.githubusercontent.com/" ++ org ++ "/" ++ repo ++ "/" ++ ref ++ "/"
              ++ pyJoin "/" (y :: ps2))
  ∧ (∀ url, (urlparse url).netloc ≠ "github.com" → normalizeGithubUrl url = url)
  ∧ (∀ url, (urlparse url).netloc = "github.com" →
        ¬(5 ≤ (pySplit (urlparse url).path '/').length
            ∧ (pySplit (urlparse url).path '/').getD 3 "" = "blob") →
        normalizeGithubUrl url = url)
  ∧ normalizeGithubUrl "https://github.com/org/repo/blob/main/skills/x/SKILL.md"
      = "https://raw.githubusercontent.com/org/repo/main/skills/x/SKILL.md"
  ∧ downloadSkillFolderName "https://github.com/org/repo/blob/main/skills/x/SKILL.md"
      = "x" := by
  refine ⟨?_, ?_, ?_, by rfl, by rfl⟩
  · intro org repo ref y ps2 ho hr hrf hy hp
    rw [normalizeGithubUrl_blob org repo ref (y :: ps2) ho hr hrf (by
      intro s hs
      rcases List.mem_cons.mp hs with rfl | h2
      · exact hy
      · exact hp s h2)]
    exact raw_url_pretty org repo ref y ps2

  · exact normalizeGithubUrl_of_ne
  · intro url h1 h2
    unfold normalizeGithubUrl
    rw [if_neg (fun hM => hM h1), if_neg h2]

/-- C4 witness: the blob-rewrite theorem applied to the spec's example URL. -/
theorem normalize_github_url_spec_witness :
    normalizeGithubUrl
        ("https://github.com/" ++ pyJoin "/" (["org", "repo", "blob", "main"] ++ "skills" :: ["x", "SKILL.md"]))
      = "https://raw.githubusercontent.com/" ++ "org" ++ "/" ++ "repo" ++ "/" ++ "main" ++ "/"
          ++ pyJoin "/" ("skills" :: ["x", "SKILL.md"]) :=
  normalize_github_url_spec.1 "org" "repo" "main" "skills" ["x", "SKILL.md"]
    (by decide) (by decide) (by decide) (by decide) (by decide)

/-- C3: the folder name for a downloaded reference document is the path
segment before the filename; the repository name when the file sits at the
root of a GitHub blob URL; and the dashed hostname when it sits at the root of
any other host — together with the spec's three concrete cases. -/
theorem download_skill_folder_name_spec :
    (∀ host parent file : String, ∀ ss : List String,
        goodHost host → host ≠ "github.com" → host ≠ "raw.githubusercontent.com" →
        (∀ s ∈ ss, goodSeg s) → goodSeg parent → goodSeg file →
        downloadSkillFolderName
            ("https://" ++ host ++ "/" ++ pyJoin "/" (ss ++ [parent, file]))
          = parent)
  ∧ (∀ org repo ref file : String,
        goodSeg org → goodSeg repo → goodSeg ref → goodSeg file →
        downloadSkillFolderName
            ("https://github.com/" ++ pyJoin "/" [org, repo, "blob", ref, file])
          = repo)
  ∧ (∀ host file : String,
        goodHost host → host ≠ "github.com" → host ≠ "raw.githubusercontent.com" →
        goodSeg file →
        downloadSkillFolderName ("https://" ++ host ++ "/" ++ file)
          = pyReplaceDotDash host)
  ∧ downloadSkillFolderName "https://example.com/skills/my-skill/SKILL.md" = "my-skill"
  ∧ downloadSkillFolderName "https://github.com/org/repo/blob/main/SKILL.md" = "repo"
  ∧ downloadSkillFolderName "https://example.com/SKILL.md" = "example-com" := by
  refine ⟨?_, ?_, ?_, by rfl, by rfl, by rfl⟩
  · intro host parent file ss hg hgh hraw hss hpar hfile
    have hsegs : ∀ s ∈ ss ++ [parent, file], goodSeg s := by
      intro s hs
      rcases List.mem_append.mp hs with h1 | h2
      · exact hss s h1
      · simp only [List.mem_cons, List.not_mem_nil, or_false] at h2
        rcases h2 with rfl | rfl
        · exact hpar
        · exact hfile
    have hup := urlparse_host_join host (ss ++ [parent, file]) hg hsegs
    have hnorm := normalizeGithubUrl_of_ne
      ("https://" ++ host ++ "/" ++ pyJoin "/" (ss ++ [parent, file]))
      (by rw [hup]; exact hgh)
    unfold downloadSkillFolderName
    rw [hnorm]
    dsimp only
    rw [hup]
    dsimp only
    have hr1 : pyRstripSlash ("/" ++ pyJoin "/" (ss ++ [parent, file]))
        = "/" ++ pyJoin "/" (ss ++ [parent, file]) := by
      have := rstrip_slash_join (ss ++ [parent]) file hfile.1 (goodSeg_no_slash hfile)
      simpa [List.append_assoc] using this
    rw [hr1]
    rw [pySplit_slash_join _ (by simp) (fun s hs => goodSeg_no_slash (hsegs s hs))]
    rw [filter_nonempty _ (fun s hs => (hsegs s hs).1)]
    rw [if_neg hraw]
    rw [if_pos (by simp)]
    exact getD_penultimate ss parent file
  · intro org repo ref file ho hr hrf hfile
    have hnorm : normalizeGithubUrl
          ("https://github.com/" ++ pyJoin "/" [org, repo, "blob", ref, file])
        = "https://raw.githubusercontent.com" ++ pyJoin "/" ["", org, repo, ref, file] :=
      normalizeGithubUrl_blob org repo ref [file] ho hr hrf (by
        intro s hs
        simp only [List.mem_singleton] at hs
        subst hs
        exact hfile)
    have hsegs : ∀ s ∈ [org, repo, ref, file], goodSeg s := by
      intro s hs
      simp only [List.mem_cons, List.not_mem_nil, or_false] at hs
      rcases hs with rfl | rfl | rfl | rfl
      · exact ho
      · exact hr
      · exact hrf
      · exact hfile
    have hup := urlparse_host_join "raw.githubusercontent.com" [org, repo, ref, file]
      ⟨by decide, by decide⟩ hsegs
    unfold downloadSkillFolderName
    rw [hnorm]
    rw [show ("https://raw.githubusercontent.com"
          ++ pyJoin "/" ["", org, repo, ref, file])
        = ("https://" ++ "raw.githubusercontent.com" ++ "/"
            ++ pyJoin "/" [org, repo, ref, file]) from rfl]
    dsimp only
    rw [hup]
    dsimp only
    have hr1 : pyRstripSlash ("/" ++ pyJoin "/" [org, repo, ref, file])
        = "/" ++ pyJoin "/" [org, repo, ref, file] := by
      have := rstrip_slash_join [org, repo, ref] file hfile.1 (goodSeg_no_slash hfile)
      simpa [List.append_assoc] using this
    rw [hr1]
    rw [pySplit_slash_join _ (by simp) (fun s hs => goodSeg_no_slash (hsegs s hs))]
    rw [filter_nonempty _ (fun s hs => (hsegs s hs).1)]
    rw [if_pos rfl, if_pos (by simp)]
    rfl
  · intro host file hg hgh hraw hfile
    have hup := urlparse_https host file (goodHost_chars hg) (by
      intro c hc
      exact ⟨(hfile.2 c hc).2.1, (hfile.2 c hc).2.2.1, (hfile.2 c hc).2.2.2⟩)
    have hnorm := normalizeGithubUrl_of_ne ("https://" ++ host ++ "/" ++ file)
      (by rw [hup]; exact hgh)
    unfold downloadSkillFolderName
    rw [hnorm]
    dsimp only
    rw [hup]
    dsimp only
    have hr1 : pyRstripSlash ("/" ++ file) = "/" ++ file :=
      rstrip_slash_join [] file hfile.1 (goodSeg_no_slash hfile)
    rw [hr1]
    rw [show ("/" ++ file) = ("/" ++ pyJoin "/" [file]) from rfl]
    rw [pySplit_slash_join [file] (by simp) (by
      intro s hs
      simp only [List.mem_singleton] at hs
      subst hs
      exact goodSeg_no_slash hfile)]
    rw [filter_nonempty [file] (by
      intro s hs
      simp only [List.mem_singleton] at hs
      subst hs
      exact hfile.1)]
    rw [if_neg hraw, if_neg (by simp)]

/-- C3 witness: the parent-segment rule applied to the spec's example URL. -/
theorem download_skill_folder_name_spec_witness :
    downloadSkillFolderName
        ("https://" ++ "example.com" ++ "/" ++ pyJoin "/" (["skills"] ++ ["my-skill", "SKILL.md"]))
      = "my-skill" :=
  download_skill_folder_name_spec.1 "example.com" "my-skill" "SKILL.md" ["skills"]
    (by decide) (by decide) (by decide) (by decide) (by decide) (by decide)

/-! ## Claim C5 -/

theorem decodeLine_skipped (st : DecSt) (line : String) (h : skippedLine line) :
    decodeLine st line = Except.ok st := by
  unfold decodeLine
  rcases h with h1 | h2 | ⟨v, hv, hnd⟩
  · rw [if_pos h1]
  · by_cases hb : pyStrip line = ""
    · rw [if_pos hb]
    · rw [if_neg hb, h2]
  · by_cases hb : pyStrip line = ""
    · rw [if_pos hb]
    · rw [if_neg hb, hv]
      cases v with
      | dict kvs => exact absurd rfl (hnd kvs)
      | none => rfl
      | bool b => rfl
      | num q => rfl
      | str s => rfl
      | list xs => rfl

theorem decodeLinesFrom_append (st : DecSt) (l1 l2 : List String) :
    decodeLinesFrom st (l1 ++ l2)
      = match decodeLinesFrom st l1 with
        | Except.error e => Except.error e
        | Except.ok st1 => decodeLinesFrom st1 l2 := by
  induction l1 generalizing st with
  | nil => simp [decodeLinesFrom]
  | cons x xs ih =>
    simp only [List.cons_append, decodeLinesFrom]
    cases decodeLine st x with
    | error e => rfl
    | ok st1 => exact ih st1

/-- C5 (amended): the decoder yields the empty record on empty input, and any
line that is blank, fails JSON parsing, or parses to a non-object is skipped —
removing such a line anywhere leaves the decoding of the remaining lines
unchanged, so malformed lines interleaved with valid ones never suppress the
valid lines' contribution.  (The claim's totality over every input string is
refuted separately: a well-formed JSON object line with an ill-typed field
raises.) -/
theorem parse_json_output_tolerant :
    parseJsonOutput "" = Except.ok emptyParseOut
  ∧ (∀ ls1 ls2 : List String, ∀ bad, skippedLine bad →
      decodeLines (ls1 ++ bad :: ls2) = decodeLines (ls1 ++ ls2)) := by
  constructor
  · rfl
  · intro ls1 ls2 bad hbad
    unfold decodeLines
    rw [decodeLinesFrom_append, decodeLinesFrom_append]
    cases decodeLinesFrom {} ls1 with
    | error e => rfl
    | ok st =>
      show decodeLinesFrom st (bad :: ls2) = decodeLinesFrom st ls2
      simp only [decodeLinesFrom, decodeLine_skipped st bad hbad]

/-- C5 counterexample: on the valid JSON object line whose `message` field is
the number 0, the decoder raises (`AttributeError` from
`msg.get("message", {}).get("content", [])` in the source), so it is not
total over every input string. -/
theorem parse_json_output_not_total :
    parseJsonOutput "\x7b\"type\": \"assistant\", \"message\": 0\x7d"
      = Except.error PyErr.attributeError := rfl

/-- C5 witness: dropping a non-JSON line does not change the decoding of the
surrounding lines. -/
theorem parse_json_output_tolerant_witness :
    decodeLines (["\x7b\"type\": \"assistant\"\x7d"] ++ "not json" :: ["\x7b\"type\": \"result\"\x7d"])
      = decodeLines (["\x7b\"type\": \"assistant\"\x7d"] ++ ["\x7b\"type\": \"result\"\x7d"]) :=
  parse_json_output_tolerant.2 ["\x7b\"type\": \"assistant\"\x7d"] ["\x7b\"type\": \"result\"\x7d"]
    "not json" (Or.inr (Or.inl (by rfl)))

/-! ## Claim C6: lemmas tracking the decoder accumulators -/

theorem isStrEq_ne {v : PyVal} {a b : String} (hab : a ≠ b)
    (h : isStrEq v a = true) : isStrEq v b = false := by
  cases v with
  | str t =>
    simp only [isStrEq, beq_iff_eq] at h ⊢
    subst h
    simp [hab]
  | none => simp [isStrEq]
  | bool x => simp [isStrEq]
  | num q => simp [isStrEq]
  | list xs => simp [isStrEq]
  | dict kvs => simp [isStrEq]

theorem isStrEq_skill_truthy {v : PyVal} (h : isStrEq v "Skill" = true) :
    pyTruthy v = true := by
  cases v with
  | str t =>
    simp only [isStrEq, beq_iff_eq] at h
    subst h
    rfl
  | none => simp [isStrEq] at h
  | bool x => simp [isStrEq] at h
  | num q => simp [isStrEq] at h
  | list xs => simp [isStrEq] at h
  | dict kvs => simp [isStrEq] at h

theorem pySetAdd_ok {s tu : List PyVal} {v : PyVal}
    (h : pySetAdd s v = Except.ok tu) :
    (∀ w ∈ s, w ∈ tu) ∧ (∃ w ∈ tu, scalarEq v w = true) := by
  cases v with
  | list xs => exact absurd h (by simp [pySetAdd])
  | dict kvs => exact absurd h (by simp [pySetAdd])
  | none =>
    simp only [pySetAdd] at h
    by_cases hany : s.any (fun w => scalarEq PyVal.none w) = true
    · rw [if_pos hany] at h
      injection h with h1
      subst h1
      obtain ⟨w, hw, he⟩ := List.any_eq_true.mp hany
      exact ⟨fun w hw => hw, ⟨w, hw, he⟩⟩
    · rw [if_neg hany] at h
      injection h with h1
      subst h1
      exact ⟨fun w hw => List.mem_append_left _ hw,
        ⟨PyVal.none, List.mem_append_right _ (by simp), by rfl⟩⟩
  | bool x =>
    simp only [pySetAdd] at h
    by_cases hany : s.any (fun w => scalarEq (PyVal.bool x) w) = true
    · rw [if_pos hany] at h
      injection h with h1
      subst h1
      obtain ⟨w, hw, he⟩ := List.any_eq_true.mp hany
      exact ⟨fun w hw => hw, ⟨w, hw, he⟩⟩
    · rw [if_neg hany] at h
      injection h with h1
      subst h1
      exact ⟨fun w hw => List.mem_append_left _ hw,
        ⟨PyVal.bool x, List.mem_append_right _ (by simp), by simp [scalarEq]⟩⟩
  | num q =>
    simp only [pySetAdd] at h
    by_cases hany : s.any (fun w => scalarEq (PyVal.num q) w) = true
    · rw [if_pos hany] at h
      injection h with h1
      subst h1
      obtain ⟨w, hw, he⟩ := List.any_eq_true.mp hany
      exact ⟨fun w hw => hw, ⟨w, hw, he⟩⟩
    · rw [if_neg hany] at h
      injection h with h1
      subst h1
      exact ⟨fun w hw => List.mem_append_left _ hw,
        ⟨PyVal.num q, List.mem_append_right _ (by simp), by simp [scalarEq]⟩⟩
  | str t =>
    simp only [pySetAdd] at h
    by_cases hany : s.any (fun w => scalarEq (PyVal.str t) w) = true
    · rw [if_pos hany] at h
      injection h with h1
      subst h1
      obtain ⟨w, hw, he⟩ := List.any_eq_true.mp hany
      exact ⟨fun w hw => hw, ⟨w, hw, he⟩⟩
    · rw [if_neg hany] at h
      injection h with h1
      subst h1
      exact ⟨fun w hw => List.mem_append_left _ hw,
        ⟨PyVal.str t, List.mem_append_right _ (by simp), by simp [scalarEq]⟩⟩

theorem bool_eq_false {b : Bool} (h : ¬b = true) : b = false := by
  cases b
  · rfl
  · exact absurd rfl h

theorem skillRecord_spec (st1 : DecSt) (kvs : List (String × PyVal)) (st' : DecSt)
    (h : skillRecord st1 kvs = Except.ok st') :
    st'.textParts = st1.textParts
  ∧ st'.toolsUsed = st1.toolsUsed
  ∧ st'.skillsInvoked = st1.skillsInvoked ++ skillNameList kvs := by
  unfold skillRecord at h
  by_cases hsk : isStrEq (dictGetD kvs "name" (PyVal.str "")) "Skill" = true
  · rw [if_pos hsk] at h
    cases hin : dictGetD kvs "input" (PyVal.dict []) with
    | dict inp =>
      simp only [hin, pyGet] at h
      by_cases htr2 : pyTruthy (dictGetD inp "skill" (PyVal.str "")) = true
      · rw [if_pos htr2] at h
        injection h with h1
        subst h1
        exact ⟨rfl, rfl, by simp [skillNameList, hsk, hin, htr2]⟩
      · rw [if_neg htr2] at h
        injection h with h1
        subst h1
        exact ⟨rfl, rfl, by simp [skillNameList, hsk, hin, bool_eq_false htr2]⟩
    | none => simp only [hin, pyGet] at h; exact Except.noConfusion h
    | bool b => simp only [hin, pyGet] at h; exact Except.noConfusion h
    | num q => simp only [hin, pyGet] at h; exact Except.noConfusion h
    | str t => simp only [hin, pyGet] at h; exact Except.noConfusion h
    | list xs => simp only [hin, pyGet] at h; exact Except.noConfusion h
  · rw [if_neg hsk] at h
    injection h with h1
    subst h1
    exact ⟨rfl, rfl, by simp [skillNameList, bool_eq_false hsk]⟩

theorem processContent_spec (st : DecSt) (c : PyVal) (st' : DecSt)
    (h : processContent st c = Except.ok st') :
    st'.textParts = st.textParts ++ textOfContent c
  ∧ st'.skillsInvoked = st.skillsInvoked ++ skillsOfContent c
  ∧ (∀ v ∈ st.toolsUsed, v ∈ st'.toolsUsed)
  ∧ (∀ v ∈ toolNamesOfContent c, ∃ w ∈ st'.toolsUsed, scalarEq v w = true) := by
  cases c with
  | none =>
    simp only [processContent] at h
    injection h with h1
    subst h1
    simp [textOfContent, skillsOfContent, toolNamesOfContent]
  | bool b =>
    simp only [processContent] at h
    injection h with h1
    subst h1
    simp [textOfContent, skillsOfContent, toolNamesOfContent]
  | num q =>
    simp only [processContent] at h
    injection h with h1
    subst h1
    simp [textOfContent, skillsOfContent, toolNamesOfContent]
  | str s =>
    simp only [processContent] at h
    injection h with h1
    subst h1
    simp [textOfContent, skillsOfContent, toolNamesOfContent]
  | list xs =>
    simp only [processContent] at h
    injection h with h1
    subst h1
    simp [textOfContent, skillsOfContent, toolNamesOfContent]
  | dict kvs =>
    simp only [processContent] at h
    by_cases htext : isStrEq (dictGetD kvs "type" PyVal.none) "text" = true
    · rw [if_pos htext] at h
      have htool : isStrEq (dictGetD kvs "type" PyVal.none) "tool_use" = false :=
        isStrEq_ne (by decide) htext
      cases hval : dictGetD kvs "text" (PyVal.str "") with
      | str s =>
        simp only [hval, pyStripVal] at h
        by_cases hne : pyStrip s ≠ ""
        · rw [if_pos hne] at h
          injection h with h1
          subst h1
          refine ⟨by simp [textOfContent, htext, hval, hne], ?_, by simp, ?_⟩
          · simp [skillsOfContent, htool]
          · simp [toolNamesOfContent, htool]
        · rw [if_neg hne] at h
          injection h with h1
          subst h1
          refine ⟨by simp [textOfContent, htext, hval, hne], ?_, by simp, ?_⟩
          · simp [skillsOfContent, htool]
          · simp [toolNamesOfContent, htool]
      | none => simp only [hval, pyStripVal] at h; exact Except.noConfusion h
      | bool b => simp only [hval, pyStripVal] at h; exact Except.noConfusion h
      | num q => simp only [hval, pyStripVal] at h; exact Except.noConfusion h
      | list xs => simp only [hval, pyStripVal] at h; exact Except.noConfusion h
      | dict k2 => simp only [hval, pyStripVal] at h; exact Except.noConfusion h
    · rw [if_neg htext] at h
      have htextf : isStrEq (dictGetD kvs "type" PyVal.none) "text" = false :=
        bool_eq_false htext
      by_cases htool : isStrEq (dictGetD kvs "type" PyVal.none) "tool_use" = true
      · rw [if_pos htool] at h
        by_cases htr : pyTruthy (dictGetD kvs "name" (PyVal.str "")) = true
        · rw [if_pos htr] at h
          cases hsa : pySetAdd st.toolsUsed (dictGetD kvs "name" (PyVal.str "")) with
          | error e => simp only [hsa] at h; exact Except.noConfusion h
          | ok tu =>
            simp only [hsa] at h
            obtain ⟨hpres, hex⟩ := pySetAdd_ok hsa
            obtain ⟨ht1, ht2, ht3⟩ := skillRecord_spec _ kvs st' h
            refine ⟨?_, ?_, ?_, ?_⟩
            · rw [ht1]
              simp [textOfContent, htextf]
            · rw [ht3]
              simp [skillsOfContent, htool]
            · intro v hv
              rw [ht2]
              exact hpres v hv
            · intro v hv
              simp only [toolNamesOfContent, htool, htr, Bool.and_self, if_true,
                List.mem_singleton] at hv
              subst hv
              rw [ht2]
              exact hex
        · rw [if_neg htr] at h
          obtain ⟨ht1, ht2, ht3⟩ := skillRecord_spec st kvs st' h
          have hskf : isStrEq (dictGetD kvs "name" (PyVal.str "")) "Skill" = false :=
            bool_eq_false (fun hsk => htr (isStrEq_skill_truthy hsk))
          refine ⟨?_, ?_, ?_, ?_⟩
          · rw [ht1]
            simp [textOfContent, htextf]
          · rw [ht3]
            simp [skillsOfContent, htool, skillNameList, hskf]
          · intro v hv
            rw [ht2]
            exact hv
          · intro v hv
            simp [toolNamesOfContent, htool, bool_eq_false htr] at hv
      · rw [if_neg htool] at h
        injection h with h1
        subst h1
        refine ⟨by simp [textOfContent, htextf], ?_, by simp, ?_⟩
        · simp [skillsOfContent, bool_eq_false htool]
        · simp [toolNamesOfContent, bool_eq_false htool]

theorem flatMap_ite {α β : Type} (A : Prop) [Decidable A] (l : List α) (f : α → List β) :
    (if A then l else []).flatMap f = if A then l.flatMap f else [] := by
  by_cases hA : A
  · simp [hA]
  · simp [hA]

theorem processContents_spec (cs : List PyVal) : ∀ st st' : DecSt,
    processContents st cs = Except.ok st' →
    st'.textParts = st.textParts ++ cs.flatMap textOfContent
  ∧ st'.skillsInvoked = st.skillsInvoked ++ cs.flatMap skillsOfContent
  ∧ (∀ v ∈ st.toolsUsed, v ∈ st'.toolsUsed)
  ∧ (∀ v ∈ cs.flatMap toolNamesOfContent, ∃ w ∈ st'.toolsUsed, scalarEq v w = true) := by
  induction cs with
  | nil =>
    intro st st' h
    injection h with h1
    subst h1
    simp
  | cons c cs ih =>
    intro st st' h
    unfold processContents at h
    cases hc : processContent st c with
    | error e => simp only [hc] at h; exact Except.noConfusion h
    | ok st1 =>
      simp only [hc] at h
      obtain ⟨t1, s1, p1, e1⟩ := processContent_spec st c st1 hc
      obtain ⟨t2, s2, p2, e2⟩ := ih st1 st' h
      refine ⟨?_, ?_, ?_, ?_⟩
      · rw [t2, t1, List.flatMap_cons, List.append_assoc]
      · rw [s2, s1, List.flatMap_cons, List.append_assoc]
      · exact fun v hv => p2 v (p1 v hv)
      · intro v hv
        rw [List.flatMap_cons] at hv
        rcases List.mem_append.mp hv with h1 | h2
        · obtain ⟨w, hw, he⟩ := e1 v h1
          exact ⟨w, p2 w hw, he⟩
        · exact e2 v h2

theorem processInit_acc (st : DecSt) (msg : List (String × PyVal)) :
    (processInit st msg).textParts = st.textParts
  ∧ (processInit st msg).skillsInvoked = st.skillsInvoked
  ∧ (processInit st msg).toolsUsed = st.toolsUsed := by
  unfold processInit
  split
  · exact ⟨rfl, rfl, rfl⟩
  · exact ⟨rfl, rfl, rfl⟩

theorem processResult_acc (st : DecSt) (msg : List (String × PyVal)) (st' : DecSt)
    (h : processResult st msg = Except.ok st') :
    st'.textParts = st.textParts
  ∧ st'.skillsInvoked = st.skillsInvoked
  ∧ st'.toolsUsed = st.toolsUsed := by
  unfold processResult at h
  by_cases hty : isStrEq (dictGetD msg "type" PyVal.none) "result" = true
  · rw [if_pos hty] at h
    cases h1 : pyGet (dictGetD msg "usage" (PyVal.dict [])) "input_tokens" (PyVal.num 0) with
    | error e => simp only [h1] at h; exact Except.noConfusion h
    | ok a =>
      simp only [h1] at h
      cases h2 : pyGet (dictGetD msg "usage" (PyVal.dict [])) "cache_read_input_tokens" (PyVal.num 0) with
      | error e => simp only [h2] at h; exact Except.noConfusion h
      | ok b =>
        simp only [h2] at h
        cases h3 : pyGet (dictGetD msg "usage" (PyVal.dict [])) "cache_creation_input_tokens" (PyVal.num 0) with
        | error e => simp only [h3] at h; exact Except.noConfusion h
        | ok c =>
          simp only [h3] at h
          cases h4 : pyAdd a b with
          | error e => simp only [h4] at h; exact Except.noConfusion h
          | ok ab =>
            simp only [h4] at h
            cases h5 : pyAdd ab c with
            | error e => simp only [h5] at h; exact Except.noConfusion h
            | ok abc =>
              simp only [h5] at h
              cases h6 : pyGet (dictGetD msg "usage" (PyVal.dict [])) "output_tokens" PyVal.none with
              | error e => simp only [h6] at h; exact Except.noConfusion h
              | ok outTok =>
                simp only [h6] at h
                injection h with h7
                subst h7
                exact ⟨rfl, rfl, rfl⟩
  · rw [if_neg hty] at h
    injection h with h1
    subst h1
    exact ⟨rfl, rfl, rfl⟩

theorem processAssistant_spec (st : DecSt) (kvs : List (String × PyVal)) (st' : DecSt)
    (h : processAssistant st kvs = Except.ok st') :
    st'.textParts = st.textParts
        ++ (if isStrEq (dictGetD kvs "type" PyVal.none) "assistant" = true
            then (msgContents kvs).flatMap textOfContent else [])
  ∧ st'.skillsInvoked = st.skillsInvoked
        ++ (if isStrEq (dictGetD kvs "type" PyVal.none) "assistant" = true
            then (msgContents kvs).flatMap skillsOfContent else [])
  ∧ (∀ v ∈ st.toolsUsed, v ∈ st'.toolsUsed)
  ∧ (∀ v, v ∈ (if isStrEq (dictGetD kvs "type" PyVal.none) "assistant" = true
            then (msgContents kvs).flatMap toolNamesOfContent else []) →
        ∃ w ∈ st'.toolsUsed, scalarEq v w = true) := by
  unfold processAssistant at h
  by_cases ha : isStrEq (dictGetD kvs "type" PyVal.none) "assistant" = true
  · rw [if_pos ha] at h
    cases hmsg : dictGetD kvs "message" (PyVal.dict []) with
    | dict mkvs =>
      simp only [hmsg, pyGet] at h
      cases hcv : dictGetD mkvs "content" (PyVal.list []) with
      | list l =>
        simp only [hcv, pyIter] at h
        have hmc : msgContents kvs = l := by simp [msgContents, hmsg, hcv]
        obtain ⟨t, s, p, e⟩ := processContents_spec l st st' h
        refine ⟨by rw [t, if_pos ha, hmc], by rw [s, if_pos ha, hmc], p, ?_⟩
        intro v hv
        rw [if_pos ha, hmc] at hv
        exact e v hv
      | str s2 =>
        simp only [hcv, pyIter] at h
        have hmc : msgContents kvs = s2.data.map (fun c => PyVal.str (String.mk [c])) := by
          simp [msgContents, hmsg, hcv]
        obtain ⟨t, s, p, e⟩ := processContents_spec _ st st' h
        refine ⟨by rw [t, if_pos ha, hmc], by rw [s, if_pos ha, hmc], p, ?_⟩
        intro v hv
        rw [if_pos ha, hmc] at hv
        exact e v hv
      | dict ckvs =>
        simp only [hcv, pyIter] at h
        have hmc : msgContents kvs = ckvs.map (fun kv => PyVal.str kv.1) := by
          simp [msgContents, hmsg, hcv]
        obtain ⟨t, s, p, e⟩ := processContents_spec _ st st' h
        refine ⟨by rw [t, if_pos ha, hmc], by rw [s, if_pos ha, hmc], p, ?_⟩
        intro v hv
        rw [if_pos ha, hmc] at hv
        exact e v hv
      | none => simp only [hcv, pyIter] at h; exact Except.noConfusion h
      | bool b => simp only [hcv, pyIter] at h; exact Except.noConfusion h
      | num q => simp only [hcv, pyIter] at h; exact Except.noConfusion h
    | none => simp only [hmsg, pyGet] at h; exact Except.noConfusion h
    | bool b => simp only [hmsg, pyGet] at h; exact Except.noConfusion h
    | num q => simp only [hmsg, pyGet] at h; exact Except.noConfusion h
    | str t => simp only [hmsg, pyGet] at h; exact Except.noConfusion h
    | list xs => simp only [hmsg, pyGet] at h; exact Except.noConfusion h
  · rw [if_neg ha] at h
    injection h with h1
    subst h1
    refine ⟨by rw [if_neg ha]; simp, by rw [if_neg ha]; simp, fun v hv => hv, ?_⟩
    intro v hv
    rw [if_neg ha] at hv
    simp at hv

theorem processMsg_spec (st : DecSt) (kvs : List (String × PyVal)) (st' : DecSt)
    (h : processMsg st kvs = Except.ok st') :
    st'.textParts = st.textParts
        ++ (if isStrEq (dictGetD kvs "type" PyVal.none) "assistant" = true
            then (msgContents kvs).flatMap textOfContent else [])
  ∧ st'.skillsInvoked = st.skillsInvoked
        ++ (if isStrEq (dictGetD kvs "type" PyVal.none) "assistant" = true
            then (msgContents kvs).flatMap skillsOfContent else [])
  ∧ (∀ v ∈ st.toolsUsed, v ∈ st'.toolsUsed)
  ∧ (∀ v, v ∈ (if isStrEq (dictGetD kvs "type" PyVal.none) "assistant" = true
            then (msgContents kvs).flatMap toolNamesOfContent else []) →
        ∃ w ∈ st'.toolsUsed, scalarEq v w = true) := by
  unfold processMsg at h
  cases hpa : processAssistant (processInit st kvs) kvs with
  | error e => simp only [hpa] at h; exact Except.noConfusion h
  | ok st2 =>
    simp only [hpa] at h
    obtain ⟨i1, i2, i3⟩ := processInit_acc st kvs
    obtain ⟨a1, a2, a3, a4⟩ := processAssistant_spec _ kvs st2 hpa
    obtain ⟨r1, r2, r3⟩ := processResult_acc st2 kvs st' h
    refine ⟨?_, ?_, ?_, ?_⟩
    · rw [r1, a1, i1]
    · rw [r2, a2, i2]
    · intro v hv
      rw [r3]
      exact a3 v (by rw [i3]; exact hv)
    · intro v hv
      obtain ⟨w, hw, he⟩ := a4 v hv
      exact ⟨w, by rw [r3]; exact hw, he⟩

theorem decodeLine_spec (st : DecSt) (line : String) (st' : DecSt)
    (h : decodeLine st line = Except.ok st') :
    st'.textParts = st.textParts ++ lineTexts line
  ∧ st'.skillsInvoked = st.skillsInvoked ++ lineSkills line
  ∧ (∀ v ∈ st.toolsUsed, v ∈ st'.toolsUsed)
  ∧ (∀ v ∈ lineToolNames line, ∃ w ∈ st'.toolsUsed, scalarEq v w = true) := by
  unfold decodeLine at h
  by_cases hb : pyStrip line = ""
  · rw [if_pos hb] at h
    injection h with h1
    subst h1
    simp [lineTexts, lineSkills, lineToolNames, lineContents, hb]
  · rw [if_neg hb] at h
    cases hl : jsonLoads line with
    | none =>
      simp only [hl] at h
      injection h with h1
      subst h1
      simp [lineTexts, lineSkills, lineToolNames, lineContents, hb, hl]
    | some v =>
      cases v with
      | dict kvs =>
        simp only [hl] at h
        obtain ⟨t, s, p, e⟩ := processMsg_spec st kvs st' h
        have hlc : lineContents line
            = if isStrEq (dictGetD kvs "type" PyVal.none) "assistant" = true
              then msgContents kvs else [] := by
          simp [lineContents, hb, hl]
        refine ⟨?_, ?_, p, ?_⟩
        · rw [t, lineTexts, hlc, flatMap_ite]
        · rw [s, lineSkills, hlc, flatMap_ite]
        · intro v hv
          rw [lineToolNames, hlc, flatMap_ite] at hv
          exact e v hv
      | none =>
        simp only [hl] at h
        injection h with h1
        subst h1
        simp [lineTexts, lineSkills, lineToolNames, lineContents, hb, hl]
      | bool b =>
        simp only [hl] at h
        injection h with h1
        subst h1
        simp [lineTexts, lineSkills, lineToolNames, lineContents, hb, hl]
      | num q =>
        simp only [hl] at h
        injection h with h1
        subst h1
        simp [lineTexts, lineSkills, lineToolNames, lineContents, hb, hl]
      | str s2 =>
        simp only [hl] at h
        injection h with h1
        subst h1
        simp [lineTexts, lineSkills, lineToolNames, lineContents, hb, hl]
      | list xs =>
        simp only [hl] at h
        injection h with h1
        subst h1
        simp [lineTexts, lineSkills, lineToolNames, lineContents, hb, hl]

theorem decodeLinesFrom_spec (ls : List String) : ∀ st st' : DecSt,
    decodeLinesFrom st ls = Except.ok st' →
    st'.textParts = st.textParts ++ ls.flatMap lineTexts
  ∧ st'.skillsInvoked = st.skillsInvoked ++ ls.flatMap lineSkills
  ∧ (∀ v ∈ st.toolsUsed, v ∈ st'.toolsUsed)
  ∧ (∀ v ∈ ls.flatMap lineToolNames, ∃ w ∈ st'.toolsUsed, scalarEq v w = true) := by
  induction ls with
  | nil =>
    intro st st' h
    injection h with h1
    subst h1
    simp
  | cons l ls ih =>
    intro st st' h
    unfold decodeLinesFrom at h
    cases hc : decodeLine st l with
    | error e => simp only [hc] at h; exact Except.noConfusion h
    | ok st1 =>
      simp only [hc] at h
      obtain ⟨t1, s1, p1, e1⟩ := decodeLine_spec st l st1 hc
      obtain ⟨t2, s2, p2, e2⟩ := ih st1 st' h
      refine ⟨?_, ?_, ?_, ?_⟩
      · rw [t2, t1, List.flatMap_cons, List.append_assoc]
      · rw [s2, s1, List.flatMap_cons, List.append_assoc]
      · exact fun v hv => p2 v (p1 v hv)
      · intro v hv
        rw [List.flatMap_cons] at hv
        rcases List.mem_append.mp hv with h1 | h2
        · obtain ⟨w, hw, he⟩ := e1 v h1
          exact ⟨w, p2 w hw, he⟩
        · exact e2 v h2

/-- C6: on every input stream the decoder accepts, the output text is the
double-newline join of the non-empty stripped text segments of assistant-turn
events in arrival order; every truthy `tool_use` capability name is recorded
(up to Python equality) in the tools-used set; and the `Skill` invocations'
named documents form the skills-invoked list in arrival order, duplicates
preserved. -/
theorem parse_json_output_extraction (s : String) (r : ParseOut)
    (h : parseJsonOutput s = Except.ok r) :
    r.outputText = pyJoin "\n\n" ((pySplit (pyStrip s) '\n').flatMap lineTexts)
  ∧ r.skillsInvoked = (pySplit (pyStrip s) '\n').flatMap lineSkills
  ∧ (∀ v ∈ (pySplit (pyStrip s) '\n').flatMap lineToolNames,
      ∃ w ∈ r.toolsUsed, scalarEq v w = true) := by
  unfold parseJsonOutput at h
  cases hd : decodeLines (pySplit (pyStrip s) '\n') with
  | error e => rw [hd] at h; exact Except.noConfusion h
  | ok st =>
    rw [hd] at h
    injection h with h1
    subst h1
    unfold decodeLines at hd
    obtain ⟨t, sk, _, e⟩ := decodeLinesFrom_spec _ _ _ hd
    refine ⟨?_, ?_, ?_⟩
    · show pyJoin "\n\n" st.textParts = _
      rw [t]
      rfl
    · show st.skillsInvoked = _
      rw [sk]
      rfl
    · exact e

set_option maxRecDepth 100000 in
/-- C6 witness: the extraction theorem applied to a concrete one-line stream
with one text segment and one `Skill` invocation. -/
theorem parse_json_output_extraction_witness :
    (⟨"hi", [PyVal.str "pdf"], [PyVal.str "Skill"], PyVal.none, PyVal.list [],
        PyVal.list [], PyVal.none, PyVal.none, PyVal.none, PyVal.none,
        PyVal.none⟩ : ParseOut).skillsInvoked
      = (pySplit (pyStrip "\x7b\"type\": \"assistant\", \"message\": \x7b\"content\": [\x7b\"type\": \"text\", \"text\": \" hi \"\x7d, \x7b\"type\": \"tool_use\", \"name\": \"Skill\", \"input\": \x7b\"skill\": \"pdf\"\x7d\x7d]\x7d\x7d") '\n').flatMap lineSkills :=
  (parse_json_output_extraction
    "\x7b\"type\": \"assistant\", \"message\": \x7b\"content\": [\x7b\"type\": \"text\", \"text\": \" hi \"\x7d, \x7b\"type\": \"tool_use\", \"name\": \"Skill\", \"input\": \x7b\"skill\": \"pdf\"\x7d\x7d]\x7d\x7d"
    ⟨"hi", [PyVal.str "pdf"], [PyVal.str "Skill"], PyVal.none, PyVal.list [],
      PyVal.list [], PyVal.none, PyVal.none, PyVal.none, PyVal.none, PyVal.none⟩
    (by rfl)).2.1

/-! ## Claim C2 -/

theorem supLoop_errMsg (timeout stallTimeout startTime : Nat) :
    ∀ (trace : List IterObs) (lastOut : Nat) (acc : List String),
    (supLoop timeout stallTimeout startTime lastOut acc trace).errMsg
      = (match (supLoop timeout stallTimeout startTime lastOut acc trace).exit with
         | LoopExit.timedOut => some (timeoutMsg timeout)
         | LoopExit.stalled => some (stallMsg stallTimeout)
         | _ => Option.none) := by
  intro trace
  induction trace with
  | nil =>
    intro lastOut acc
    rfl
  | cons ob rest ih =>
    intro lastOut acc
    unfold supLoop
    cases hp : ob.poll with
    | some code => rfl
    | none =>
      by_cases h1 : timeout < ob.now - startTime
      · rw [if_pos h1]
      · rw [if_neg h1]
        by_cases h2 : stallTimeout < ob.now - lastOut
        · rw [if_pos h2]
        · rw [if_neg h2]
          cases hl : ob.line with
          | some l => exact ih _ _
          | none => exact ih _ _

theorem stallMsg_ne_timeoutMsg (s t : Nat) : stallMsg s ≠ timeoutMsg t := by
  intro h
  have hs : (stallMsg s).data.head? = some 'S' := rfl
  have ht : (timeoutMsg t).data.head? = some 'T' := rfl
  rw [h, ht] at hs
  simp at hs

/-- C2: when the supervision loop terminates, the reported success flag is
true iff neither the total-runtime timer nor the stall timer expired and the
process exit code is zero; a stall and a timeout each report their own cause
string, and the two cause strings are distinct for all parameter values. -/
theorem run_claude_success_spec (timeout stallTimeout startTime : Nat)
    (trace : List IterObs)
    (hdone : (supLoop timeout stallTimeout startTime startTime [] trace).exit
        ≠ LoopExit.ranOut) :
    ((runClaudeOutcome timeout stallTimeout startTime trace).1 = true
      ↔ ((supLoop timeout stallTimeout startTime startTime [] trace).exit ≠ LoopExit.timedOut
        ∧ (supLoop timeout stallTimeout startTime startTime [] trace).exit ≠ LoopExit.stalled
        ∧ (supLoop timeout stallTimeout startTime startTime [] trace).exit = LoopExit.exited 0))
  ∧ ((supLoop timeout stallTimeout startTime startTime [] trace).exit = LoopExit.stalled →
      (runClaudeOutcome timeout stallTimeout startTime trace).2 = some (stallMsg stallTimeout))
  ∧ ((supLoop timeout stallTimeout startTime startTime [] trace).exit = LoopExit.timedOut →
      (runClaudeOutcome timeout stallTimeout startTime trace).2 = some (timeoutMsg timeout))
  ∧ stallMsg stallTimeout ≠ timeoutMsg timeout := by
  have herr := supLoop_errMsg timeout stallTimeout startTime trace startTime []
  unfold runClaudeOutcome runClaudeVerdict
  cases hex : (supLoop timeout stallTimeout startTime startTime [] trace).exit with
  | ranOut => exact absurd hex hdone
  | exited code =>
    simp only [hex] at herr
    simp only [herr, hex]
    refine ⟨?_, ?_, ?_, stallMsg_ne_timeoutMsg stallTimeout timeout⟩
    · constructor
      · intro hc
        have hcode : code = 0 := by simpa using hc
        subst hcode
        exact ⟨by simp, by simp, rfl⟩
      · rintro ⟨-, -, h3⟩
        injection h3 with hc
        subst hc
        simp
    · intro hcon
      exact LoopExit.noConfusion hcon
    · intro hcon
      exact LoopExit.noConfusion hcon
  | timedOut =>
    simp only [hex] at herr
    simp only [herr, hex]
    refine ⟨?_, ?_, ?_, stallMsg_ne_timeoutMsg stallTimeout timeout⟩
    · constructor
      · intro hc
        simp at hc
      · rintro ⟨h1, -, -⟩
        exact absurd rfl h1
    · intro hcon
      exact LoopExit.noConfusion hcon
    · intro _
      trivial
  | stalled =>
    simp only [hex] at herr
    simp only [herr, hex]
    refine ⟨?_, ?_, ?_, stallMsg_ne_timeoutMsg stallTimeout timeout⟩
    · constructor
      · intro hc
        simp at hc
      · rintro ⟨-, h2, -⟩
        exact absurd rfl h2
    · intro _
      trivial
    · intro hcon
      exact LoopExit.noConfusion hcon

/-- C2 witness: the success criterion evaluated on a concrete trace where the
process exits with code 0 on the first poll. -/
theorem run_claude_success_spec_witness :
    (runClaudeOutcome 600 60 0 [⟨some 0, 5, Option.none⟩]).1 = true
      ↔ ((supLoop 600 60 0 0 [] [⟨some 0, 5, Option.none⟩]).exit ≠ LoopExit.timedOut
        ∧ (supLoop 600 60 0 0 [] [⟨some 0, 5, Option.none⟩]).exit ≠ LoopExit.stalled
        ∧ (supLoop 600 60 0 0 [] [⟨some 0, 5, Option.none⟩]).exit = LoopExit.exited 0) :=
  (run_claude_success_spec 600 60 0 [⟨some 0, 5, Option.none⟩] (by decide)).1

/-! ## Claim C7 -/

/-- C7 (the code evaluated at the failing inputs): with `.claude` excluded,
`_find_changed_files` still reports paths containing a `.claude` component —
when the original directory is absent it reports every file under a top-level
`.claude` directory, and inside a newly introduced directory it reports files
under a nested `.claude` directory — because both branches check only the
file's own name against the exclusion set. -/
theorem find_changed_files_exclusion_bug :
    findChangedFiles Option.none
        (FSTree.dcons ".claude"
          (FSTree.dcons "cred.json" (FSTree.file "token" 0) FSTree.dnil) FSTree.dnil)
        [".claude"]
      = [[".claude", "cred.json"]]
  ∧ findChangedFiles (some FSTree.dnil)
        (FSTree.dcons "newd"
          (FSTree.dcons ".claude"
            (FSTree.dcons "x.txt" (FSTree.file "a" 0) FSTree.dnil) FSTree.dnil) FSTree.dnil)
        [".claude"]
      = [["newd", ".claude", "x.txt"]]
  ∧ ".claude" ∈ [".claude", "cred.json"]
  ∧ ".claude" ∈ ["newd", ".claude", "x.txt"] :=
  ⟨rfl, rfl, by decide, by decide⟩

/-! ## Claim C8: lemmas about the change-set detector -/

theorem treeNodup_dcons {m : String} {child rest : FSTree}
    (h : treeNodup (FSTree.dcons m child rest) = true) :
    m ∉ spineNames rest ∧ treeNodup child = true ∧ treeNodup rest = true := by
  simp only [treeNodup, Bool.and_eq_true, Bool.not_eq_true'] at h
  obtain ⟨⟨h1, h2⟩, h3⟩ := h
  refine ⟨?_, h2, h3⟩
  intro hmem
  have h4 : (spineNames rest).contains m = true := List.elem_iff.mpr hmem
  exact Bool.noConfusion (h4.symm.trans h1)

theorem rglob_mem_shape (excl : List String) :
    ∀ (t : FSTree) (p : List String), p ∈ rglobFilesExcl excl t →
      ∃ n ps, p = n :: ps ∧ n ∈ spineNames t := by
  intro t
  induction t with
  | file c s =>
    intro p hp
    simp [rglobFilesExcl] at hp
  | dnil =>
    intro p hp
    simp [rglobFilesExcl] at hp
  | dcons n child rest ihc ihr =>
    intro p hp
    cases child with
    | file c s =>
      simp only [rglobFilesExcl] at hp
      by_cases he : excl.contains n = true
      · rw [if_pos he] at hp
        obtain ⟨m, ps, rfl, hm⟩ := ihr p hp
        exact ⟨m, ps, rfl, by simp [spineNames, hm]⟩
      · rw [if_neg he] at hp
        rcases List.mem_cons.mp hp with h1 | h2
        · exact ⟨n, [], h1, by simp [spineNames]⟩
        · obtain ⟨m, ps, rfl, hm⟩ := ihr p h2
          exact ⟨m, ps, rfl, by simp [spineNames, hm]⟩
    | dnil =>
      simp only [rglobFilesExcl] at hp
      rcases List.mem_append.mp hp with h1 | h2
      · obtain ⟨q, hq, rfl⟩ := List.mem_map.mp h1
        exact ⟨n, q, rfl, by simp [spineNames]⟩
      · obtain ⟨m, ps, rfl, hm⟩ := ihr p h2
        exact ⟨m, ps, rfl, by simp [spineNames, hm]⟩
    | dcons n2 c2 r2 =>
      simp only [rglobFilesExcl] at hp
      rcases List.mem_append.mp hp with h1 | h2
      · obtain ⟨q, hq, rfl⟩ := List.mem_map.mp h1
        exact ⟨n, q, rfl, by simp [spineNames]⟩
      · obtain ⟨m, ps, rfl, hm⟩ := ihr p h2
        exact ⟨m, ps, rfl, by simp [spineNames, hm]⟩

theorem compareDirs_mem_shape (excl : List String) :
    ∀ (b a : FSTree) (p : List String), p ∈ compareDirs excl a b →
      ∃ n ps, p = n :: ps ∧ n ∈ spineNames b ∧ n ∉ excl := by
  intro b
  induction b with
  | file c s =>
    intro a p hp
    simp [compareDirs] at hp
  | dnil =>
    intro a p hp
    simp [compareDirs] at hp
  | dcons n child rest ihc ihr =>
    intro a p hp
    simp only [compareDirs] at hp
    by_cases he : excl.contains n = true
    · rw [if_pos he] at hp
      obtain ⟨m, ps, rfl, hm, hex⟩ := ihr a p hp
      exact ⟨m, ps, rfl, by simp [spineNames, hm], hex⟩
    · rw [if_neg he] at hp
      have hnexcl : n ∉ excl := fun hmem => he (List.elem_iff.mpr hmem)
      cases hae : lookupEntry a n with
      | none =>
        simp only [hae] at hp
        cases child with
        | file c s =>
          rcases List.mem_cons.mp hp with h1 | h2
          · exact ⟨n, [], h1, by simp [spineNames], hnexcl⟩
          · obtain ⟨m, ps, rfl, hm, hex⟩ := ihr a p h2
            exact ⟨m, ps, rfl, by simp [spineNames, hm], hex⟩
        | dnil =>
          rcases List.mem_append.mp hp with h1 | h2
          · obtain ⟨q, hq, rfl⟩ := List.mem_map.mp h1
            exact ⟨n, q, rfl, by simp [spineNames], hnexcl⟩
          · obtain ⟨m, ps, rfl, hm, hex⟩ := ihr a p h2
            exact ⟨m, ps, rfl, by simp [spineNames, hm], hex⟩
        | dcons n2 c2 r2 =>
          rcases List.mem_append.mp hp with h1 | h2
          · obtain ⟨q, hq, rfl⟩ := List.mem_map.mp h1
            exact ⟨n, q, rfl, by simp [spineNames], hnexcl⟩
          · obtain ⟨m, ps, rfl, hm, hex⟩ := ihr a p h2
            exact ⟨m, ps, rfl, by simp [spineNames, hm], hex⟩
      | some ae =>
        simp only [hae] at hp
        cases ae with
        | file c1 s1 =>
          cases child with
          | file c2 s2 =>
            dsimp only at hp
            by_cases hcmp : shallowCmp c1 s1 c2 s2 = true
            · rw [if_pos hcmp] at hp
              obtain ⟨m, ps, rfl, hm, hex⟩ := ihr a p hp
              exact ⟨m, ps, rfl, by simp [spineNames, hm], hex⟩
            · rw [if_neg hcmp] at hp
              rcases List.mem_cons.mp hp with h1 | h2
              · exact ⟨n, [], h1, by simp [spineNames], hnexcl⟩
              · obtain ⟨m, ps, rfl, hm, hex⟩ := ihr a p h2
                exact ⟨m, ps, rfl, by simp [spineNames, hm], hex⟩
          | dnil =>
            obtain ⟨m, ps, rfl, hm, hex⟩ := ihr a p hp
            exact ⟨m, ps, rfl, by simp [spineNames, hm], hex⟩
          | dcons n2 c2 r2 =>
            obtain ⟨m, ps, rfl, hm, hex⟩ := ihr a p hp
            exact ⟨m, ps, rfl, by simp [spineNames, hm], hex⟩
        | dnil =>
          cases child with
          | file c2 s2 =>
            obtain ⟨m, ps, rfl, hm, hex⟩ := ihr a p hp
            exact ⟨m, ps, rfl, by simp [spineNames, hm], hex⟩
          | dnil =>
            rcases List.mem_append.mp hp with h1 | h2
            · obtain ⟨q, hq, rfl⟩ := List.mem_map.mp h1
              exact ⟨n, q, rfl, by simp [spineNames], hnexcl⟩
            · obtain ⟨m, ps, rfl, hm, hex⟩ := ihr a p h2
              exact ⟨m, ps, rfl, by simp [spineNames, hm], hex⟩
          | dcons n2 c2 r2 =>
            rcases List.mem_append.mp hp with h1 | h2
            · obtain ⟨q, hq, rfl⟩ := List.mem_map.mp h1
              exact ⟨n, q, rfl, by simp [spineNames], hnexcl⟩
            · obtain ⟨m, ps, rfl, hm, hex⟩ := ihr a p h2
              exact ⟨m, ps, rfl, by simp [spineNames, hm], hex⟩
        | dcons an ac ar =>
          cases child with
          | file c2 s2 =>
            obtain ⟨m, ps, rfl, hm, hex⟩ := ihr a p hp
            exact ⟨m, ps, rfl, by simp [spineNames, hm], hex⟩
          | dnil =>
            rcases List.mem_append.mp hp with h1 | h2
            · obtain ⟨q, hq, rfl⟩ := List.mem_map.mp h1
              exact ⟨n, q, rfl, by simp [spineNames], hnexcl⟩
            · obtain ⟨m, ps, rfl, hm, hex⟩ := ihr a p h2
              exact ⟨m, ps, rfl, by simp [spineNames, hm], hex⟩
          | dcons n2 c2 r2 =>
            rcases List.mem_append.mp hp with h1 | h2
            · obtain ⟨q, hq, rfl⟩ := List.mem_map.mp h1
              exact ⟨n, q, rfl, by simp [spineNames], hnexcl⟩
            · obtain ⟨m, ps, rfl, hm, hex⟩ := ihr a p h2
              exact ⟨m, ps, rfl, by simp [spineNames, hm], hex⟩

theorem lookupPath_cons (t : FSTree) (n : String) (ps : List String) :
    lookupPath t (n :: ps)
      = (match lookupEntry t n with
         | some c => lookupPath c ps
         | Option.none => Option.none) := rfl

theorem compareDirs_skip_head (excl : List String) (m : String) (mc : FSTree) :
    ∀ (b a : FSTree), m ∉ spineNames b →
      compareDirs excl (FSTree.dcons m mc a) b = compareDirs excl a b := by
  intro b
  induction b with
  | file c s =>
    intro a hm
    rfl
  | dnil =>
    intro a hm
    rfl
  | dcons n child rest _ihc ihr =>
    intro a hm
    have hmn : ¬(m = n) := fun he => hm (by simp [spineNames, he])
    have hmr : m ∉ spineNames rest := fun hmem => hm (by simp [spineNames, hmem])
    have hlk : lookupEntry (FSTree.dcons m mc a) n = lookupEntry a n := by
      simp [lookupEntry, hmn]
    simp only [compareDirs, hlk, ihr a hmr]

theorem sameContent_names : ∀ a b : FSTree, sameContent a b = true →
    spineNames a = spineNames b := by
  intro a
  induction a with
  | file c s =>
    intro b h
    cases b with
    | file c2 s2 => rfl
    | dnil => simp [sameContent] at h
    | dcons n2 c2 r2 => simp [sameContent] at h
  | dnil =>
    intro b h
    cases b with
    | file c2 s2 => simp [sameContent] at h
    | dnil => rfl
    | dcons n2 c2 r2 => simp [sameContent] at h
  | dcons n c r _ihc ihr =>
    intro b h
    cases b with
    | file c2 s2 => simp [sameContent] at h
    | dnil => simp [sameContent] at h
    | dcons n2 c2 r2 =>
      simp only [sameContent, Bool.and_eq_true, beq_iff_eq] at h
      obtain ⟨⟨h1, _⟩, h3⟩ := h
      simp [spineNames, h1, ihr r2 h3]

theorem compareDirs_sameContent (excl : List String) :
    ∀ (b a : FSTree), treeNodup a = true → sameContent a b = true →
      compareDirs excl a b = [] := by
  intro b
  induction b with
  | file c s =>
    intro a _ _
    rfl
  | dnil =>
    intro a _ _
    rfl
  | dcons n child rest ihc ihr =>
    intro a hnd hsc
    cases a with
    | file c s => simp [sameContent] at hsc
    | dnil => simp [sameContent] at hsc
    | dcons m achild arest =>
      have hmn : m = n := by
        simp only [sameContent, Bool.and_eq_true, beq_iff_eq] at hsc
        exact hsc.1.1
      subst hmn
      have hsc1 : sameContent achild child = true := by
        simp only [sameContent, Bool.and_eq_true] at hsc
        exact hsc.1.2
      have hsc2 : sameContent arest rest = true := by
        simp only [sameContent, Bool.and_eq_true] at hsc
        exact hsc.2
      obtain ⟨hnm, hnc, hnr⟩ := treeNodup_dcons hnd
      have hmrest : m ∉ spineNames rest := by
        rw [← sameContent_names arest rest hsc2]
        exact hnm
      have htail : compareDirs excl (FSTree.dcons m achild arest) rest
          = compareDirs excl arest rest :=
        compareDirs_skip_head excl m achild rest arest hmrest
      simp only [compareDirs, htail, ihr arest hnr hsc2]
      by_cases he : excl.contains m = true
      · rw [if_pos he]
      · rw [if_neg he]
        have hlk : lookupEntry (FSTree.dcons m achild arest) m = some achild := by
          simp [lookupEntry]
        simp only [hlk]
        cases achild with
        | file c1 s1 =>
          cases child with
          | file c2 s2 =>
            have hcc : c1 = c2 := by simpa [sameContent] using hsc1
            subst hcc
            dsimp only
            rw [if_pos (by simp [shallowCmp])]
          | dnil => simp [sameContent] at hsc1
          | dcons n2 c2 r2 => simp [sameContent] at hsc1
        | dnil =>
          cases child with
          | file c2 s2 => simp [sameContent] at hsc1
          | dnil =>
            dsimp only
            simp [ihc FSTree.dnil hnc hsc1]
          | dcons n2 c2 r2 => simp [sameContent] at hsc1
        | dcons an ac ar =>
          cases child with
          | file c2 s2 => simp [sameContent] at hsc1
          | dnil => simp [sameContent] at hsc1
          | dcons n2 c2 r2 =>
            dsimp only
            simp [ihc (FSTree.dcons an ac ar) hnc hsc1]

theorem compareDirs_cons_drop (excl : List String) (m : String) (child rest a : FSTree)
    (p : List String) (hm : ∀ q : List String, p ≠ m :: q)
    (hmem : p ∈ compareDirs excl a (FSTree.dcons m child rest)) :
    p ∈ compareDirs excl a rest := by
  simp only [compareDirs] at hmem
  by_cases he : excl.contains m = true
  · rwa [if_pos he] at hmem
  · rw [if_neg he] at hmem
    cases hae : lookupEntry a m with
    | none =>
      simp only [hae] at hmem
      cases child with
      | file c2 s2 =>
        rcases List.mem_cons.mp hmem with h1 | h2
        · exact absurd h1 (hm [])
        · exact h2
      | dnil =>
        rcases List.mem_append.mp hmem with h1 | h2
        · obtain ⟨q, hq, heq⟩ := List.mem_map.mp h1
          exact absurd heq.symm (hm q)
        · exact h2
      | dcons bn bc br =>
        rcases List.mem_append.mp hmem with h1 | h2
        · obtain ⟨q, hq, heq⟩ := List.mem_map.mp h1
          exact absurd heq.symm (hm q)
        · exact h2
    | some ae =>
      simp only [hae] at hmem
      cases child with
      | file c2 s2 =>
        cases ae with
        | file c1 s1 =>
          dsimp only at hmem
          by_cases hcmp : shallowCmp c1 s1 c2 s2 = true
          · rwa [if_pos hcmp] at hmem
          · rw [if_neg hcmp] at hmem
            rcases List.mem_cons.mp hmem with h1 | h2
            · exact absurd h1 (hm [])
            · exact h2
        | dnil => exact hmem
        | dcons an ac ar => exact hmem
      | dnil =>
        cases ae with
        | file c1 s1 => exact hmem
        | dnil =>
          dsimp only at hmem
          rcases List.mem_append.mp hmem with h1 | h2
          · obtain ⟨q, hq, heq⟩ := List.mem_map.mp h1
            exact absurd heq.symm (hm q)
          · exact h2
        | dcons an ac ar =>
          dsimp only at hmem
          rcases List.mem_append.mp hmem with h1 | h2
          · obtain ⟨q, hq, heq⟩ := List.mem_map.mp h1
            exact absurd heq.symm (hm q)
          · exact h2
      | dcons bn bc br =>
        cases ae with
        | file c1 s1 => exact hmem
        | dnil =>
          dsimp only at hmem
          rcases List.mem_append.mp hmem with h1 | h2
          · obtain ⟨q, hq, heq⟩ := List.mem_map.mp h1
            exact absurd heq.symm (hm q)
          · exact h2
        | dcons an ac ar =>
          dsimp only at hmem
          rcases List.mem_append.mp hmem with h1 | h2
          · obtain ⟨q, hq, heq⟩ := List.mem_map.mp h1
            exact absurd heq.symm (hm q)
          · exact h2

theorem compareDirs_not_mem (excl : List String) :
    ∀ (b a : FSTree) (p : List String) (cc : String) (sa sb : Nat),
      treeNodup b = true →
      lookupPath a p = some (FSTree.file cc sa) →
      lookupPath b p = some (FSTree.file cc sb) →
      p ∉ compareDirs excl a b := by
  intro b
  induction b with
  | file c s =>
    intro a p cc sa sb _ _ _ hmem
    simp [compareDirs] at hmem
  | dnil =>
    intro a p cc sa sb _ _ _ hmem
    simp [compareDirs] at hmem
  | dcons m child rest ihc ihr =>
    intro a p cc sa sb hnd hpa hpb hmem
    obtain ⟨hmrest, hndc, hndr⟩ := treeNodup_dcons hnd
    cases p with
    | nil =>
      simp only [lookupPath] at hpb
      injection hpb with hb
      exact FSTree.noConfusion hb
    | cons n ps =>
      by_cases hmn : m = n
      · subst hmn
        have hpb2 : lookupPath child ps = some (FSTree.file cc sb) := by
          rw [lookupPath_cons] at hpb
          simpa [lookupEntry] using hpb
        cases hae : lookupEntry a m with
        | none =>
          rw [lookupPath_cons, hae] at hpa
          exact Option.noConfusion hpa
        | some ae =>
          have hpa2 : lookupPath ae ps = some (FSTree.file cc sa) := by
            rw [lookupPath_cons, hae] at hpa
            exact hpa
          simp only [compareDirs] at hmem
          by_cases he : excl.contains m = true
          · rw [if_pos he] at hmem
            obtain ⟨n2, ps2, heq, hmem2, -⟩ := compareDirs_mem_shape excl rest a _ hmem
            injection heq with he1 he2
            exact hmrest (he1 ▸ hmem2)
          · rw [if_neg he] at hmem
            simp only [hae] at hmem
            cases child with
            | file c2 s2 =>
              cases ps with
              | nil =>
                simp only [lookupPath] at hpb2
                injection hpb2 with hcf
                injection hcf with hcc2 hss2
                subst hcc2
                cases ae with
                | file c1 s1 =>
                  simp only [lookupPath] at hpa2
                  injection hpa2 with haef
                  injection haef with hx hy
                  subst hx
                  dsimp only at hmem
                  rw [if_pos (by simp [shallowCmp])] at hmem
                  obtain ⟨n2, ps2, heq, hmem2, -⟩ := compareDirs_mem_shape excl rest a _ hmem
                  injection heq with he1 he2
                  exact hmrest (he1 ▸ hmem2)
                | dnil =>
                  simp only [lookupPath] at hpa2
                  injection hpa2 with hb
                  exact FSTree.noConfusion hb
                | dcons an ac ar =>
                  simp only [lookupPath] at hpa2
                  injection hpa2 with hb
                  exact FSTree.noConfusion hb
              | cons q qs =>
                rw [lookupPath_cons] at hpb2
                simp only [lookupEntry] at hpb2
                exact Option.noConfusion hpb2
            | dnil =>
              cases ps with
              | nil =>
                simp only [lookupPath] at hpb2
                injection hpb2 with hb
                exact FSTree.noConfusion hb
              | cons q qs =>
                rw [lookupPath_cons] at hpb2
                simp only [lookupEntry] at hpb2
                exact Option.noConfusion hpb2
            | dcons bn bc br =>
              cases ae with
              | file c1 s1 =>
                cases ps with
                | nil =>
                  simp only [lookupPath] at hpb2
                  injection hpb2 with hb
                  exact FSTree.noConfusion hb
                | cons q qs =>
                  rw [lookupPath_cons] at hpa2
                  simp only [lookupEntry] at hpa2
                  exact Option.noConfusion hpa2
              | dnil =>
                dsimp only at hmem
                rcases List.mem_append.mp hmem with h1 | h2
                · obtain ⟨q, hq, heq⟩ := List.mem_map.mp h1
                  injection heq with he1 he2
                  subst he2
                  cases q with
                  | nil =>
                    simp only [lookupPath] at hpa2
                    injection hpa2 with hb
                    exact FSTree.noConfusion hb
                  | cons q2 qs2 =>
                    rw [lookupPath_cons] at hpa2
                    simp only [lookupEntry] at hpa2
                    exact Option.noConfusion hpa2
                · obtain ⟨n2, ps2, heq, hmem2, -⟩ := compareDirs_mem_shape excl rest a _ h2
                  injection heq with he1 he2
                  exact hmrest (he1 ▸ hmem2)
              | dcons an ac ar =>
                dsimp only at hmem
                rcases List.mem_append.mp hmem with h1 | h2
                · obtain ⟨q, hq, heq⟩ := List.mem_map.mp h1
                  injection heq with he1 he2
                  subst he2
                  exact ihc (FSTree.dcons an ac ar) q cc sa sb hndc hpa2 hpb2 hq
                · obtain ⟨n2, ps2, heq, hmem2, -⟩ := compareDirs_mem_shape excl rest a _ h2
                  injection heq with he1 he2
                  exact hmrest (he1 ▸ hmem2)
      · have hpb2 : lookupPath rest (n :: ps) = some (FSTree.file cc sb) := by
          rw [lookupPath_cons] at hpb ⊢
          simpa [lookupEntry, hmn] using hpb
        have hdrop := compareDirs_cons_drop excl m child rest a (n :: ps)
          (fun q heq => by
            injection heq with he1 he2
            exact hmn he1.symm) hmem
        exact ihr a (n :: ps) cc sa sb hndr hpa hpb2 hdrop

theorem lookupPath_setFileAt :
    ∀ (a : FSTree) (n : String) (ps : List String) (c0 : String) (s0 : Nat)
      (c : String) (ns : Nat),
      lookupPath a (n :: ps) = some (FSTree.file c0 s0) →
      lookupPath (setFileAt a (n :: ps) c ns) (n :: ps) = some (FSTree.file c ns) := by
  intro a
  induction a with
  | file cx sx =>
    intro n ps c0 s0 c ns h
    rw [lookupPath_cons] at h
    simp only [lookupEntry] at h
    exact Option.noConfusion h
  | dnil =>
    intro n ps c0 s0 c ns h
    rw [lookupPath_cons] at h
    simp only [lookupEntry] at h
    exact Option.noConfusion h
  | dcons m child rest ihc ihr =>
    intro n ps c0 s0 c ns h
    by_cases hmn : m = n
    · subst hmn
      cases ps with
      | nil =>
        simp only [setFileAt, if_pos rfl]
        rw [lookupPath_cons]
        simp [lookupEntry, lookupPath]
      | cons q qs =>
        have hch : lookupPath child (q :: qs) = some (FSTree.file c0 s0) := by
          rw [lookupPath_cons] at h
          simpa [lookupEntry] using h
        simp only [setFileAt, if_pos rfl]
        rw [lookupPath_cons]
        simp only [lookupEntry, if_pos rfl]
        exact ihc q qs c0 s0 c ns hch
    · have hrest : lookupPath rest (n :: ps) = some (FSTree.file c0 s0) := by
        rw [lookupPath_cons] at h
        simpa [lookupEntry, hmn] using h
      simp only [setFileAt, if_neg hmn]
      rw [lookupPath_cons]
      simp only [lookupEntry, if_neg hmn]
      have := ihr n ps c0 s0 c ns hrest
      rw [lookupPath_cons] at this
      exact this

/-- C8: the change-set detector reports nothing for two structurally identical
trees (same files, same contents, stat signatures free); a file whose content
is equal on both sides is never reported, whatever its signatures; and a file
reported against an original that also holds it disappears from the next diff
once its new content is copied into the original tree. -/
theorem find_changed_files_equiv_spec :
    (∀ (a b : FSTree) (excl : List String), treeNodup a = true →
        sameContent a b = true → findChangedFiles (some a) b excl = [])
  ∧ (∀ (a b : FSTree) (excl : List String) (p : List String) (c : String) (sa sb : Nat),
        treeNodup b = true →
        lookupPath a p = some (FSTree.file c sa) →
        lookupPath b p = some (FSTree.file c sb) →
        p ∉ findChangedFiles (some a) b excl)
  ∧ (∀ (a b : FSTree) (excl : List String) (p : List String) (ca cb : String)
        (sa sb ns : Nat),
        treeNodup b = true →
        p ∈ findChangedFiles (some a) b excl →
        lookupPath a p = some (FSTree.file ca sa) →
        lookupPath b p = some (FSTree.file cb sb) →
        p ∉ findChangedFiles (some (setFileAt a p cb ns)) b excl) := by
  refine ⟨?_, ?_, ?_⟩
  · intro a b excl hnd hsc
    exact compareDirs_sameContent excl b a hnd hsc
  · intro a b excl p c sa sb hnd hpa hpb
    exact compareDirs_not_mem excl b a p c sa sb hnd hpa hpb
  · intro a b excl p ca cb sa sb ns hnd hmem hpa hpb
    obtain ⟨n, ps, rfl, -, -⟩ := compareDirs_mem_shape excl b a p hmem
    have hset := lookupPath_setFileAt a n ps ca sa cb ns hpa
    exact compareDirs_not_mem excl b _ (n :: ps) cb ns sb hnd hset hpb

/-- C8 witness: the identical-trees case evaluated on a concrete tree pair
differing only in stat signatures, and the round-trip case on a concrete
changed file. -/
theorem find_changed_files_equiv_spec_witness :
    findChangedFiles
        (some (FSTree.dcons "a.txt" (FSTree.file "one" 0) FSTree.dnil))
        (FSTree.dcons "a.txt" (FSTree.file "one" 7) FSTree.dnil) [] = [] :=
  find_changed_files_equiv_spec.1
    (FSTree.dcons "a.txt" (FSTree.file "one" 0) FSTree.dnil)
    (FSTree.dcons "a.txt" (FSTree.file "one" 7) FSTree.dnil) []
    (by decide) (by decide)

/-! ## C1: the scheduler `run_parallel` -/

/-- C1: `run_parallel` returns exactly one `RunResult` per submitted task; a
task whose pipeline raises an unhandled exception does not propagate it to
the caller, but is converted in place into a failed `RunResult` carrying that
task's scenario and skill-set names and the exception description, while a
task whose pipeline returns normally contributes its own result unchanged at
its own position (so a raising task never disturbs a sibling). -/
theorem run_parallel_spec (pipeline : RunTaskM → Except String RunResultM)
    (tasks : List RunTaskM) :
    (runParallel pipeline tasks).length = tasks.length
  ∧ (∀ (i : Nat) (t : RunTaskM) (e : String), tasks[i]? = some t →
      pipeline t = Except.error e →
      (runParallel pipeline tasks)[i]? = some (unexpectedErrorResult t e)
      ∧ (unexpectedErrorResult t e).success = false
      ∧ (unexpectedErrorResult t e).scenarioName = t.scenario.name
      ∧ (unexpectedErrorResult t e).skillSetName = t.skillSet.name
      ∧ (unexpectedErrorResult t e).error = some ("Unexpected error: " ++ e))
  ∧ (∀ (i : Nat) (t : RunTaskM) (r : RunResultM), tasks[i]? = some t →
      pipeline t = Except.ok r →
      (runParallel pipeline tasks)[i]? = some r) := by
  refine ⟨by simp [runParallel], ?_, ?_⟩
  · intro i t e hi hp
    refine ⟨?_, rfl, rfl, rfl, rfl⟩
    simp only [runParallel, List.getElem?_map, hi]
    simp [hp]
  · intro i t r hi hp
    simp only [runParallel, List.getElem?_map, hi]
    simp [hp]

/-- C1 witness: a two-task batch whose first task's pipeline raises,
evaluated concretely. -/
theorem run_parallel_spec_witness :
    ([(⟨⟨"s1"⟩, ⟨"k1"⟩⟩ : RunTaskM), ⟨⟨"s2"⟩, ⟨"k2"⟩⟩][0]?
        = some (⟨⟨"s1"⟩, ⟨"k1"⟩⟩ : RunTaskM))
  ∧ ((fun t : RunTaskM =>
        if t.scenario.name = "s1" then (Except.error "boom" : Except String RunResultM)
        else Except.ok ⟨t.scenario.name, t.skillSet.name, "", true, Option.none, [], []⟩)
        (⟨⟨"s1"⟩, ⟨"k1"⟩⟩ : RunTaskM) = Except.error "boom")
  ∧ ((runParallel
        (fun t : RunTaskM =>
          if t.scenario.name = "s1" then (Except.error "boom" : Except String RunResultM)
          else Except.ok ⟨t.scenario.name, t.skillSet.name, "", true, Option.none, [], []⟩)
        [⟨⟨"s1"⟩, ⟨"k1"⟩⟩, ⟨⟨"s2"⟩, ⟨"k2"⟩⟩])[0]?
          = some (unexpectedErrorResult ⟨⟨"s1"⟩, ⟨"k1"⟩⟩ "boom")
      ∧ (unexpectedErrorResult (⟨⟨"s1"⟩, ⟨"k1"⟩⟩ : RunTaskM) "boom").success = false
      ∧ (unexpectedErrorResult (⟨⟨"s1"⟩, ⟨"k1"⟩⟩ : RunTaskM) "boom").scenarioName
          = (⟨⟨"s1"⟩, ⟨"k1"⟩⟩ : RunTaskM).scenario.name
      ∧ (unexpectedErrorResult (⟨⟨"s1"⟩, ⟨"k1"⟩⟩ : RunTaskM) "boom").skillSetName
          = (⟨⟨"s1"⟩, ⟨"k1"⟩⟩ : RunTaskM).skillSet.name
      ∧ (unexpectedErrorResult (⟨⟨"s1"⟩, ⟨"k1"⟩⟩ : RunTaskM) "boom").error
          = some ("Unexpected error: " ++ "boom")) :=
  ⟨rfl, rfl,
    (run_parallel_spec _ _).2.1 0 ⟨⟨"s1"⟩, ⟨"k1"⟩⟩ "boom" rfl rfl⟩

/-! ## C9: artifact persistence in `run_scenario` -/

/-- C9 counterexample: a task whose environment build raises (here a failed
remote reference-document fetch) yields a failed `RunResult` from the
scheduler but persists no artifacts at all — no `output.md`, no `raw.jsonl`,
and in particular no `metadata.yaml` recording the error cause — because
`run_scenario` raises before its first write and `run_parallel` only builds
the in-memory `RunResult` when it catches the exception. -/
theorem run_scenario_no_artifacts_on_build_failure :
    (runTaskRecorded ⟨⟨"s"⟩, ⟨"k"⟩⟩
        ⟨Except.error "Failed to download skill from https://x/SKILL.md: timeout",
          emptyParseOut, false, Option.none, "", []⟩).2.files = []
  ∧ (runTaskRecorded ⟨⟨"s"⟩, ⟨"k"⟩⟩
        ⟨Except.error "Failed to download skill from https://x/SKILL.md: timeout",
          emptyParseOut, false, Option.none, "", []⟩).2.metadataKeys = []
  ∧ (runTaskRecorded ⟨⟨"s"⟩, ⟨"k"⟩⟩
        ⟨Except.error "Failed to download skill from https://x/SKILL.md: timeout",
          emptyParseOut, false, Option.none, "", []⟩).1.success = false :=
  ⟨rfl, rfl, rfl⟩

/-- C9 (amended): once the environment build completes, `run_scenario`
persists `output.md`, `raw.jsonl` and `metadata.yaml`, plus every changed
file under `changes/`, and a truthy error cause adds an `error` key to the
metadata, while the returned `RunResult` reflects the run's outcome; a task
that raises during environment build instead escapes `run_scenario` before
any artifact is written. -/
theorem run_scenario_artifacts (task : RunTaskM) (ox : StepOracle)
    (h : ox.buildResult = Except.ok ()) :
    ∃ r arts, runScenarioM task ox = Except.ok (r, arts)
  ∧ ["output.md"] ∈ arts.files
  ∧ ["raw.jsonl"] ∈ arts.files
  ∧ ["metadata.yaml"] ∈ arts.files
  ∧ (∀ p ∈ ox.changedFiles, ("changes" :: p) ∈ arts.files)
  ∧ (∀ e, ox.claudeError = some e → e ≠ "" → "error" ∈ arts.metadataKeys)
  ∧ r.scenarioName = task.scenario.name
  ∧ r.skillSetName = task.skillSet.name
  ∧ r.success = ox.claudeSuccess
  ∧ r.error = ox.claudeError := by
  unfold runScenarioM
  rw [h]
  refine ⟨_, _, rfl, ?_, ?_, ?_, ?_, ?_, rfl, rfl, rfl, rfl⟩
  · simp
  · simp
  · simp
  · intro p hp
    exact List.mem_append_right _ (List.mem_map_of_mem _ hp)
  · intro e he hne
    simp only [he, if_pos hne]
    simp [baseMetadataKeys]

/-- C9 witness: the amended theorem evaluated on a concrete completed build
with one changed file and a truthy error cause. -/
theorem run_scenario_artifacts_witness :
    ((StepOracle.mk (Except.ok ()) emptyParseOut false (some "exit code 2") ""
        [["a.txt"]]).buildResult = Except.ok ())
  ∧ ∃ r arts,
      runScenarioM (RunTaskM.mk ⟨"s"⟩ ⟨"k"⟩)
          (StepOracle.mk (Except.ok ()) emptyParseOut false (some "exit code 2") ""
            [["a.txt"]])
        = Except.ok (r, arts)
      ∧ ["output.md"] ∈ arts.files
      ∧ ["raw.jsonl"] ∈ arts.files
      ∧ ["metadata.yaml"] ∈ arts.files
      ∧ (∀ p ∈ (StepOracle.mk (Except.ok ()) emptyParseOut false
            (some "exit code 2") "" [["a.txt"]]).changedFiles,
          ("changes" :: p) ∈ arts.files)
      ∧ (∀ e, (StepOracle.mk (Except.ok ()) emptyParseOut false
            (some "exit code 2") "" [["a.txt"]]).claudeError = some e → e ≠ "" →
          "error" ∈ arts.metadataKeys)
      ∧ r.scenarioName = (RunTaskM.mk ⟨"s"⟩ ⟨"k"⟩).scenario.name
      ∧ r.skillSetName = (RunTaskM.mk ⟨"s"⟩ ⟨"k"⟩).skillSet.name
      ∧ r.success = (StepOracle.mk (Except.ok ()) emptyParseOut false
          (some "exit code 2") "" [["a.txt"]]).claudeSuccess
      ∧ r.error = (StepOracle.mk (Except.ok ()) emptyParseOut false
          (some "exit code 2") "" [["a.txt"]]).claudeError :=
  ⟨rfl, run_scenario_artifacts (RunTaskM.mk ⟨"s"⟩ ⟨"k"⟩)
      (StepOracle.mk (Except.ok ()) emptyParseOut false (some "exit code 2") ""
        [["a.txt"]]) rfl⟩

/-! ## C10: missing local skill vs failing remote fetch -/

theorem prepareSkillsFrom_append (fetch : String → Except String String)
    (fsInfo : String → LocalPathInfo) (acc : List SkillWrite)
    (l1 l2 : List String) :
    prepareSkillsFrom fetch fsInfo acc (l1 ++ l2)
      = match prepareSkillsFrom fetch fsInfo acc l1 with
        | Except.error e => Except.error e
        | Except.ok acc2 => prepareSkillsFrom fetch fsInfo acc2 l2 := by
  induction l1 generalizing acc with
  | nil => rfl
  | cons x xs ih =>
    simp only [List.cons_append, prepareSkillsFrom]
    by_cases hu : isUrl x = true
    · rw [if_pos hu, if_pos hu]
      cases hd : downloadSkill fetch x with
      | error e => rfl
      | ok w => exact ih (acc ++ w)
    · rw [if_neg hu, if_neg hu]
      exact ih _

/-- C10: in the environment build, a reference-document entry naming a local
path that does not exist under the repository root is silently skipped —
nothing is copied for it, no error is raised, and deleting the entry from the
skills list leaves the build's outcome unchanged — whereas a remote-URL entry
whose fetch fails aborts the whole build with the descriptive download
error. -/
theorem local_missing_skipped_vs_url_failure_aborts
    (fetch : String → Except String String) (fsInfo : String → LocalPathInfo) :
    (∀ (pre post : List String) (sp : String),
        isUrl sp = false → fsInfo sp = LocalPathInfo.missing →
        copyLocalSkill (fsInfo sp) = []
        ∧ prepareSkills fetch fsInfo (pre ++ sp :: post)
            = prepareSkills fetch fsInfo (pre ++ post))
  ∧ (∀ (pre post : List String) (url : String) (acc : List SkillWrite)
        (e : String),
        isUrl url = true →
        prepareSkillsFrom fetch fsInfo [] pre = Except.ok acc →
        fetch (normalizeGithubUrl url) = Except.error e →
        prepareSkills fetch fsInfo (pre ++ url :: post)
          = Except.error ("Failed to download skill from "
              ++ normalizeGithubUrl url ++ ": " ++ e)) := by
  constructor
  · intro pre post sp hu hmiss
    refine ⟨by rw [hmiss]; rfl, ?_⟩
    unfold prepareSkills
    rw [prepareSkillsFrom_append, prepareSkillsFrom_append]
    cases hpre : prepareSkillsFrom fetch fsInfo [] pre with
    | error e => rfl
    | ok acc =>
      show prepareSkillsFrom fetch fsInfo acc (sp :: post)
          = prepareSkillsFrom fetch fsInfo acc post
      have hne : ¬ (isUrl sp = true) := by rw [hu]; exact Bool.false_ne_true
      simp only [prepareSkillsFrom, if_neg hne, hmiss, copyLocalSkill,
        List.append_nil]
  · intro pre post url acc e hu hpre hfetch
    unfold prepareSkills
    rw [prepareSkillsFrom_append, hpre]
    show prepareSkillsFrom fetch fsInfo acc (url :: post)
        = Except.error ("Failed to download skill from "
            ++ normalizeGithubUrl url ++ ": " ++ e)
    have hd : downloadSkill fetch url
        = Except.error ("Failed to download skill from "
            ++ normalizeGithubUrl url ++ ": " ++ e) := by
      unfold downloadSkill
      dsimp only
      rw [hfetch]
    simp only [prepareSkillsFrom, if_pos hu, hd]

/-- C10 witness: part 1 of the dichotomy evaluated on a concrete skills list
whose second entry names a missing local path, over an always-failing fetch
oracle (never consulted for local entries). -/
theorem local_missing_skipped_vs_url_failure_aborts_witness :
    isUrl "skills/ghost" = false
  ∧ ((fun _ : String => LocalPathInfo.missing) "skills/ghost" = LocalPathInfo.missing)
  ∧ (copyLocalSkill ((fun _ : String => LocalPathInfo.missing) "skills/ghost") = []
     ∧ prepareSkills (fun _ => Except.error "connection refused")
          (fun _ => LocalPathInfo.missing) (["skills/real"] ++ "skills/ghost" :: [])
        = prepareSkills (fun _ => Except.error "connection refused")
          (fun _ => LocalPathInfo.missing) (["skills/real"] ++ [])) :=
  ⟨by decide, rfl,
    (local_missing_skipped_vs_url_failure_aborts
        (fun _ => Except.error "connection refused")
        (fun _ => LocalPathInfo.missing)).1
      ["skills/real"] [] "skills/ghost" (by decide) rfl⟩

end SkillEval
